import Mathlib

/-! # ELIX LowLat DVB-T2 host tool: ring buffer and stream pump

A shallow embedding of `ringBuffer.c` / `ringBuffer.h` and of the worker
loops and `main` of `elix_cli.c`.

Conventions of the embedding.

* `size_t` is 64 bits wide and `DWORD` 32 bits wide; arithmetic on them is
  arithmetic on `Nat` reduced modulo `SIZE_MOD` / `DWORD_MOD`.
* `sizeof(block_t)` is fixed by the platform ABI, not by the sources, so it is
  a parameter `sz` of every function whose C text mentions it. On the 64-bit
  targets of the tool it is 24 (`sizeofBlock64`).
* `rb->buffer` points to an array of `block_t`; the array is kept inside the
  ring state as a list whose length is the number of elements that `calloc`
  returned. `bufferEnd`, `head` and `tail` are pointers into that array and are
  kept as offsets from `rb->buffer`, counted in `block_t` elements (the unit of
  C pointer arithmetic on a `block_t *`).
* `block_t.data` is an address in a heap of payload allocations; `0` is `NULL`.
* A pointer at offset 0 from a `NULL` `rb->buffer` is `NULL`; every other
  pointer is not.
* A call that would wait on a condition variable yields `Err.blocked`; a read
  or write through a pointer that does not designate allocated storage yields
  `Err.ub`. Merely computing an out-of-range pointer is not flagged.
-/

namespace ElixRing

/-! ## Data model -/

/-- Number of values of a `size_t`. -/
def SIZE_MOD : Nat := 2 ^ 64

/-- Number of values of a `DWORD`. -/
def DWORD_MOD : Nat := 2 ^ 32

/-- The value of `sizeof(block_t)` on a 64-bit target (8 + 8 + 4, padded to 24). -/
def sizeofBlock64 : Nat := 24

/-- One octet of payload. -/
abbrev Byte := Nat

/-- Reasons for which a modelled call yields no result. -/
inductive Err where
  /-- The caller waits on a condition variable. -/
  | blocked : Err
  /-- A load or store outside allocated storage. -/
  | ub : Err
  /-- A call sequence the interface forbids (a commit without an acquire). -/
  | misuse : Err
  /-- The step budget given to a retry loop ran out. -/
  | fuel : Err
deriving DecidableEq, Repr

deriving instance DecidableEq for Except

/-- The struct `block_t` of `ringBuffer.h`. -/
structure block_t where
  /-- Address of the first byte of the block; `0` is `NULL`. -/
  data : Nat
  /-- Size of the block. -/
  len : Nat
  /-- Flag telling whether this is the last block of the file. -/
  eof : Int
deriving DecidableEq, Repr

/-- The struct `ringBuffer_t` of `ringBuffer.h`, without the mutex and the two
condition variables. -/
structure ringBuffer_t where
  /-- The array `rb->buffer` points to; `none` when the pointer is `NULL` or
  was never set. -/
  buffer : Option (List block_t)
  /-- Offset of `rb->bufferEnd` from `rb->buffer`, in elements. -/
  bufferEnd : Nat
  /-- Max number of items in the buffer. -/
  capacity : Nat
  /-- Number of items in the buffer. -/
  count : Nat
  /-- Offset of `rb->head` from `rb->buffer`, in elements. -/
  head : Nat
  /-- Offset of `rb->tail` from `rb->buffer`, in elements. -/
  tail : Nat
deriving DecidableEq, Repr

/-- Payload allocations; address `a + 1` designates the `a`-th allocation. -/
abbrev Heap := List (List Byte)

/-- The bytes stored at a payload address. -/
def Heap.load (h : Heap) (a : Nat) : Option (List Byte) :=
  match a with
  | 0 => none
  | k + 1 => h[k]?

/-- Overwrite the leading bytes of the allocation at a payload address. -/
def Heap.store (h : Heap) (a : Nat) (bytes : List Byte) : Option Heap :=
  match a with
  | 0 => none
  | k + 1 =>
    match h[k]? with
    | none => none
    | some old =>
      if bytes.length ≤ old.length then
        some (h.set k (bytes ++ old.drop bytes.length))
      else none

/-- The slot a `block_t *` at offset `p` from `rb->buffer` designates. -/
def slotAt (rb : ringBuffer_t) (p : Nat) : Option block_t :=
  match rb.buffer with
  | none => none
  | some slots => slots[p]?

/-! ## ringBuffer.c -/

/-- A zero-filled `block_t`, as `calloc` leaves it. -/
def zeroBlock : block_t := ⟨0, 0, 0⟩

/-- The call `calloc(n, size)` for an array of `block_t`: `NULL` when the
allocator refuses or the byte size does not fit a `size_t`. -/
def calloc (granted : Bool) (n size : Nat) : Option (List block_t) :=
  if granted = true ∧ n * size < SIZE_MOD then some (List.replicate n zeroBlock) else none

/-- The call `malloc(size)`: the address returned (`0` for `NULL`) and the heap
afterwards. Fresh storage is modelled as zero bytes. -/
def malloc (granted : Bool) (size : Nat) (heap : Heap) : Nat × Heap :=
  if granted = true then (heap.length + 1, heap ++ [List.replicate size 0]) else (0, heap)

/-- The `for` loop of `rbInit`: `todo` iterations remain, `i` is the loop
variable. `alloc k` tells whether the `k`-th allocation of the call is
granted (`0` is the `calloc`). -/
def rbInitLoop (alloc : Nat → Bool) (blockSize : Nat) :
    Nat → Nat → List block_t → Heap → Except Err (List block_t × Heap)
  | 0, _, slots, heap => .ok (slots, heap)
  | todo + 1, i, slots, heap =>
    let r := malloc (alloc (i + 1)) blockSize heap
    if i < slots.length then
      rbInitLoop alloc blockSize todo (i + 1) (slots.set i ⟨r.1, 0, 0⟩) r.2
    else .error .ub

/-- The function `rbInit`. `rb` is the prior content of `*rb`; the result is the
returned status, the new content of `*rb` and the heap. -/
def rbInit (sz : Nat) (alloc : Nat → Bool) (rb : ringBuffer_t) (heap : Heap)
    (capacity blockSize : Nat) : Except Err (Int × ringBuffer_t × Heap) :=
  match calloc (alloc 0) rb.capacity sz with
  | none => .ok (-1, { rb with buffer := none }, heap)
  | some slots =>
    match rbInitLoop alloc blockSize capacity 0 slots heap with
    | .error e => .error e
    | .ok (slots', heap') =>
      .ok (0, { buffer := some slots'
                bufferEnd := (capacity * sz) % SIZE_MOD
                capacity := capacity
                count := 0
                head := 0
                tail := 0 }, heap')

/-- The function `rbAcquireWriteSlot`: the pointer `rb->tail`, once the buffer is
not full. -/
def rbAcquireWriteSlot (rb : ringBuffer_t) : Except Err Nat :=
  if rb.count = rb.capacity then .error .blocked else .ok rb.tail

/-- The function `rbCommitWriteSlot`. -/
def rbCommitWriteSlot (sz : Nat) (rb : ringBuffer_t) (eof : Int) : Except Err ringBuffer_t :=
  match rb.buffer with
  | none => .error .ub
  | some slots =>
    match slots[rb.tail]? with
    | none => .error .ub
    | some b =>
      let tail1 := rb.tail + sz
      .ok { rb with
            buffer := some (slots.set rb.tail { b with eof := eof })
            tail := if tail1 = rb.bufferEnd then 0 else tail1
            count := (rb.count + 1) % SIZE_MOD }

/-- The function `rbPop`: the block copied out of `*rb->head` and the ring
afterwards. -/
def rbPop (sz : Nat) (rb : ringBuffer_t) : Except Err (block_t × ringBuffer_t) :=
  if rb.count = 0 then .error .blocked
  else
    match slotAt rb rb.head with
    | none => .error .ub
    | some b =>
      let head1 := rb.head + sz
      .ok (b, { rb with
                head := if head1 = rb.bufferEnd then 0 else head1
                count := (rb.count + SIZE_MOD - 1) % SIZE_MOD })

/-! ## The queue as seen by one producer and one consumer -/

/-- A block as an observer sees it: length, payload bytes and end-of-file flag. -/
structure Blk where
  /-- The `len` field. -/
  len : Nat
  /-- The first `len` bytes stored at `data`. -/
  payload : List Byte
  /-- The `eof` field. -/
  eof : Int
deriving DecidableEq, Repr

/-- The observable content of a `block_t` in a given heap. -/
def view (heap : Heap) (b : block_t) : Blk :=
  ⟨b.len, ((heap.load b.data).getD []).take b.len, b.eof⟩

/-- What the producer does with an acquired slot `block` (a pointer at offset
`p`): store `bytes` through `block->data`, then set `block->len`. A transfer of
zero bytes touches no payload storage. -/
def fillSlot (rb : ringBuffer_t) (heap : Heap) (p : Nat) (bytes : List Byte) :
    Except Err (ringBuffer_t × Heap) :=
  match rb.buffer with
  | none => .error .ub
  | some slots =>
    match slots[p]? with
    | none => .error .ub
    | some b =>
      match (if bytes.length = 0 then some heap else heap.store b.data bytes) with
      | none => .error .ub
      | some heap' =>
        .ok ({ rb with buffer := some (slots.set p { b with len := bytes.length }) }, heap')

/-- The queue together with what each of the two threads holds, and the history
of committed and popped blocks. -/
structure Sys where
  /-- The ring. -/
  rb : ringBuffer_t
  /-- Payload storage. -/
  heap : Heap
  /-- The pointer the producer got from `rbAcquireWriteSlot` and has not
  committed yet. -/
  reserved : Option Nat
  /-- The slot the consumer last popped (its offset) and the copy `rbPop`
  returned; the copy's `data` still points into the slot's payload storage. -/
  held : Option (Nat × block_t)
  /-- Blocks committed so far, oldest first. -/
  committed : List Blk
  /-- Blocks popped so far, oldest first. -/
  popped : List Blk
deriving DecidableEq, Repr

/-- The calls the two threads make on the queue. -/
inductive Op where
  /-- Producer: `rbAcquireWriteSlot`. -/
  | acquire : Op
  /-- Producer: write payload and length into the acquired slot. -/
  | fill (bytes : List Byte) : Op
  /-- Producer: `rbCommitWriteSlot` with the given flag. -/
  | commit (eof : Int) : Op
  /-- Consumer: `rbPop`. -/
  | pop : Op
deriving DecidableEq, Repr

/-- The system right after `rbInit` has returned. -/
def Sys.start (rb : ringBuffer_t) (heap : Heap) : Sys :=
  { rb := rb, heap := heap, reserved := none, held := none, committed := [], popped := [] }

/-- One call on the queue. Fill and commit are only made on a slot acquired
before. -/
def step (sz : Nat) (s : Sys) : Op → Except Err Sys
  | .acquire =>
    match rbAcquireWriteSlot s.rb with
    | .error e => .error e
    | .ok p => .ok { s with reserved := some p }
  | .fill bytes =>
    match s.reserved with
    | none => .error .misuse
    | some p =>
      match fillSlot s.rb s.heap p bytes with
      | .error e => .error e
      | .ok (rb', heap') => .ok { s with rb := rb', heap := heap' }
  | .commit eof =>
    match s.reserved with
    | none => .error .misuse
    | some _ =>
      match rbCommitWriteSlot sz s.rb eof with
      | .error e => .error e
      | .ok rb' =>
        .ok { s with
              rb := rb'
              reserved := none
              committed := s.committed ++ ((slotAt rb' s.rb.tail).map (view s.heap)).toList }
  | .pop =>
    match rbPop sz s.rb with
    | .error e => .error e
    | .ok (b, rb') =>
      .ok { s with rb := rb', held := some (s.rb.head, b), popped := s.popped ++ [view s.heap b] }

/-- A sequence of calls, stopping at the first one that yields no result. -/
def runOps (sz : Nat) : Sys → List Op → Except Err Sys
  | s, [] => .ok s
  | s, op :: ops =>
    match step sz s op with
    | .error e => .error e
    | .ok s' => runOps sz s' ops

/-- Build a queue with `rbInit` from a prior `*rb` whose `capacity` field holds
`cap0`, with every allocation granted, then make the given calls on it. The
status `rbInit` returns is not inspected, as in `main`. -/
def initAndRun (sz cap0 capacity blockSize : Nat) (ops : List Op) : Except Err Sys :=
  match rbInit sz (fun _ => true) ⟨none, 0, cap0, 0, 0, 0⟩ [] capacity blockSize with
  | .error e => .error e
  | .ok (_, rb, heap) => runOps sz (Sys.start rb heap) ops

/-! ## elix_cli.c: the sink -/

/-- The status `FT_OK` of the D2XX driver. -/
def FT_OK : Nat := 0

/-- What one `FT_Write` call reports: the status returned and the count stored
through the `written` out-parameter. -/
structure FtResp where
  /-- The returned `FT_STATUS`. -/
  status : Nat
  /-- The value stored in `written`. -/
  written : Nat
deriving DecidableEq, Repr

/-- The device side of the sink. -/
structure FtDev where
  /-- Offset and request size of every `FT_Write` call made, oldest first. -/
  log : List (Nat × Nat)
  /-- Bytes the device has accepted, in order. -/
  received : List Byte
  /-- Number of `Sleep(1)` calls made. -/
  sleeps : Nat
deriving DecidableEq, Repr

/-- A device that has seen no call yet. -/
def FtDev.fresh : FtDev := ⟨[], [], 0⟩

/-- The call `FT_Write(handle, buf + offset, req, &written)`. The driver is a
function `ft` from the number of earlier calls and the request size to the
response; on `FT_OK` the device has accepted the first `written` bytes of the
request. -/
def FT_Write (ft : Nat → Nat → FtResp) (dev : FtDev) (buf : List Byte) (offset req : Nat) :
    FtResp × FtDev :=
  let r := ft dev.log.length req
  (r, { dev with
        log := dev.log ++ [(offset, req)]
        received := dev.received ++
          (if r.status = FT_OK then ((buf.drop offset).take req).take r.written else []) })

/-- The `while` loop of `writeAllFt`, at most `fuel` iterations. -/
def writeAllFtLoop (ft : Nat → Nat → FtResp) (buf : List Byte) (len : Nat) :
    Nat → Nat → FtDev → Except Err (Int × FtDev)
  | 0, offset, dev => if offset < len then .error .fuel else .ok (1, dev)
  | fuel + 1, offset, dev =>
    if offset < len then
      let r := FT_Write ft dev buf offset ((len + DWORD_MOD - offset) % DWORD_MOD)
      if r.1.status ≠ FT_OK then .ok (0, r.2)
      else if r.1.written = 0 then
        writeAllFtLoop ft buf len fuel offset { r.2 with sleeps := r.2.sleeps + 1 }
      else writeAllFtLoop ft buf len fuel ((offset + r.1.written) % DWORD_MOD) r.2
    else .ok (1, dev)

/-- The function `writeAllFt`: 1 if the write succeeded, 0 instead. -/
def writeAllFt (ft : Nat → Nat → FtResp) (fuel : Nat) (dev : FtDev) (buf : List Byte)
    (len : Nat) : Except Err (Int × FtDev) :=
  writeAllFtLoop ft buf len fuel 0 dev

/-! ## elix_cli.c: the two workers -/

/-- The constant `RING_BUFFER_CAPACITY` of `elix_cli.c`. -/
def RING_BUFFER_CAPACITY : Nat := 128

/-- The constant `RING_BUFFER_BLOCK_SIZE` of `elix_cli.c`. -/
def RING_BUFFER_BLOCK_SIZE : Nat := 64 * 1024

/-- Where the producer thread stands in `producerCall`. -/
inductive ProdPc where
  /-- Before `fopen`. -/
  | start : ProdPc
  /-- Before `rbAcquireWriteSlot`. -/
  | acquire : ProdPc
  /-- Holding the slot pointer `block`, before `fread` and `block->len = n`. -/
  | fill (block : Nat) : ProdPc
  /-- Before `rbCommitWriteSlot` with the given flag. -/
  | commit (eof : Int) : ProdPc
  /-- Returned. -/
  | done : ProdPc
deriving DecidableEq, Repr

/-- Where the consumer thread stands in `consumerCall`. -/
inductive ConsPc where
  /-- Before `rbPop`. -/
  | pop : ConsPc
  /-- Holding the popped `block`, before the write to the device and the test
  of `block.eof`. -/
  | write (block : block_t) : ConsPc
  /-- Returned after the end-of-file block. -/
  | done : ConsPc
  /-- Returned after a failed `writeAllFt`. -/
  | failed : ConsPc
deriving DecidableEq, Repr

/-- What the two workers are given. -/
structure PumpCfg where
  /-- The value of `sizeof(block_t)`. -/
  sz : Nat
  /-- The field `prodArgs->blockSize`. -/
  blockSize : Nat
  /-- The driver behind `consArgs->ftHandle`. -/
  ft : Nat → Nat → FtResp
  /-- Iteration budget of each `writeAllFt` call. -/
  fuel : Nat

/-- State of the pump: the shared ring and heap, and each worker's own state. -/
structure Pump where
  /-- The ring both workers point to. -/
  rb : ringBuffer_t
  /-- Payload storage. -/
  heap : Heap
  /-- The bytes of the file not read yet; `none` when the file cannot be
  opened. -/
  file : Option (List Byte)
  /-- Producer position. -/
  ppc : ProdPc
  /-- Consumer position. -/
  cpc : ConsPc
  /-- The device. -/
  dev : FtDev
  /-- Blocks committed so far, oldest first. -/
  committed : List Blk
  /-- Blocks popped so far, oldest first. -/
  popped : List Blk
deriving DecidableEq, Repr

/-- The pump before either worker has run. -/
def Pump.start (rb : ringBuffer_t) (heap : Heap) (file : Option (List Byte)) : Pump :=
  { rb := rb, heap := heap, file := file, ppc := .start, cpc := .pop, dev := FtDev.fresh,
    committed := [], popped := [] }

/-- One step of `producerCall`. A blocked `rbAcquireWriteSlot` leaves the state
as it is. The pointer it returns is `NULL` when `rb->buffer` is `NULL` and `tail`
is at offset 0; the `!block` test then ends the loop and the producer returns.
`fread` delivers `min(blockSize, bytes left)` bytes. -/
def producerCall (cfg : PumpCfg) (s : Pump) : Except Err Pump :=
  match s.ppc with
  | .start =>
    match s.file with
    | none => .ok { s with ppc := .done }
    | some _ => .ok { s with ppc := .acquire }
  | .acquire =>
    match rbAcquireWriteSlot s.rb with
    | .error .blocked => .ok s
    | .error e => .error e
    | .ok block =>
      if s.rb.buffer.isNone = true ∧ block = 0 then .ok { s with ppc := .done }
      else .ok { s with ppc := .fill block }
  | .fill block =>
    let rest := s.file.getD []
    let n := min cfg.blockSize rest.length
    match fillSlot s.rb s.heap block (rest.take n) with
    | .error e => .error e
    | .ok (rb', heap') =>
      .ok { s with rb := rb', heap := heap', file := some (rest.drop n),
                   ppc := .commit (if n = 0 then 1 else 0) }
  | .commit eof =>
    match rbCommitWriteSlot cfg.sz s.rb eof with
    | .error e => .error e
    | .ok rb' =>
      .ok { s with
            rb := rb'
            committed := s.committed ++ ((slotAt rb' s.rb.tail).map (view s.heap)).toList
            ppc := if eof = 1 then .done else .acquire }
  | .done => .ok s

/-- One step of `consumerCall`. A blocked `rbPop` leaves the state as it is. The
bytes handed to `writeAllFt` are those found at `block.data` when the write is
made; `block.len` is converted to `DWORD`. -/
def consumerCall (cfg : PumpCfg) (s : Pump) : Except Err Pump :=
  match s.cpc with
  | .pop =>
    match rbPop cfg.sz s.rb with
    | .error .blocked => .ok s
    | .error e => .error e
    | .ok (block, rb') =>
      .ok { s with rb := rb', cpc := .write block, popped := s.popped ++ [view s.heap block] }
  | .write block =>
    let next : ConsPc := if block.eof ≠ 0 then .done else .pop
    if block.len > 0 then
      match s.heap.load block.data with
      | none => .error .ub
      | some buf =>
        match writeAllFt cfg.ft cfg.fuel s.dev buf (block.len % DWORD_MOD) with
        | .error e => .error e
        | .ok (r, dev') =>
          if r = 0 then .ok { s with dev := dev', cpc := .failed }
          else .ok { s with dev := dev', cpc := next }
    else .ok { s with cpc := next }
  | .done => .ok s
  | .failed => .ok s

/-- Run the two workers under a schedule: `true` lets the producer take its next
step, `false` the consumer. -/
def runPump (cfg : PumpCfg) : Pump → List Bool → Except Err Pump
  | s, [] => .ok s
  | s, who :: rest =>
    match (if who = true then producerCall cfg s else consumerCall cfg s) with
    | .error e => .error e
    | .ok s' => runPump cfg s' rest

/-- A driver that accepts every request in full. -/
def ftAcceptAll : Nat → Nat → FtResp := fun _ req => ⟨FT_OK, req⟩

/-- Build the ring with `rbInit` from a prior `*rb` whose `capacity` field holds
`cap0`, every allocation granted, then run the pump on an openable file with a
driver that accepts everything. The status `rbInit` returns is not inspected,
as in `main`. -/
def initAndPump (sz cap0 capacity blockSize : Nat) (file : List Byte) (sched : List Bool) :
    Except Err Pump :=
  match rbInit sz (fun _ => true) ⟨none, 0, cap0, 0, 0, 0⟩ [] capacity blockSize with
  | .error e => .error e
  | .ok (_, rb, heap) =>
    runPump ⟨sz, blockSize, ftAcceptAll, blockSize + 1⟩ (Pump.start rb heap (some file)) sched

/-! ## Auxiliary definitions for the statements below -/

/-- What every state of the queue satisfies: `count` is within `capacity`, is
below it while the producer holds a reservation, and equals the number of
blocks committed and not popped. -/
def CountInv (capacity : Nat) (s : Sys) : Prop :=
  s.rb.capacity = capacity ∧ s.rb.count ≤ capacity ∧
    (s.reserved.isSome = true → s.rb.count < capacity) ∧
    s.rb.count + s.popped.length = s.committed.length

/-- The producer's three calls for one block carrying `bytes`, not the last. -/
def produce (bytes : List Byte) : List Op := [.acquire, .fill bytes, .commit 0]

/-- Six blocks of one byte each, produced one after the other. -/
def sixBlocks : List Op :=
  produce [1] ++ produce [2] ++ produce [3] ++ produce [4] ++ produce [5] ++ produce [6]

/-- The ring `rbInit` builds for capacity 3 on a 64-bit target, when `calloc`
returned three elements. -/
def ring3 : ringBuffer_t :=
  ⟨some [⟨1, 0, 0⟩, ⟨2, 0, 0⟩, ⟨3, 0, 0⟩], 72, 3, 0, 0, 0⟩

/-- The ring `ring3` after one block of one byte has been committed. -/
def ring3one : ringBuffer_t :=
  ⟨some [⟨1, 1, 0⟩, ⟨2, 0, 0⟩, ⟨3, 0, 0⟩], 72, 3, 1, 0, 24⟩

/-- The slots of a ring built by `main` on a 64-bit target: `bufferEnd` is 3072
elements past `buffer`, no slot is flagged end-of-file, and element 144, if it
exists at all, has no payload storage. -/
def SlotsOk (rb : ringBuffer_t) : Prop :=
  ∀ slots : List block_t, rb.buffer = some slots →
    rb.bufferEnd = 3072 ∧ (∀ (p : Nat) (b : block_t), slots[p]? = some b → b.eof = 0) ∧
      (∀ b : block_t, slots[144]? = some b → b.data = 0)

/-- Where the producer can stand while more than six blocks of the file are
still to be delivered: given its position, `tail` and the number of bytes not
read yet. -/
def ProdOk : ProdPc → Nat → Nat → Prop
  | .start, tail, n => tail = 0 ∧ 6 * 65536 < n
  | .acquire, tail, n => ∃ c, c ≤ 6 ∧ tail = 24 * c ∧ 6 * 65536 < n + 65536 * c
  | .fill p, tail, n => ∃ c, c ≤ 6 ∧ p = 24 * c ∧ tail = 24 * c ∧ 6 * 65536 < n + 65536 * c
  | .commit e, tail, n =>
    e = 0 ∧ ∃ c, c ≤ 5 ∧ tail = 24 * c ∧ 6 * 65536 < n + 65536 * (c + 1)
  | .done, _, _ => False

/-- Where the consumer can stand while no end-of-file block has been committed. -/
def ConsOk : ConsPc → Prop
  | .pop => True
  | .write b => b.eof = 0
  | .done => False
  | .failed => False

/-- What holds of the pump `main` starts, at every moment, for a file of more
than six blocks. -/
def StuckInv (s : Pump) : Prop :=
  SlotsOk s.rb ∧ (∃ rest, s.file = some rest ∧ ProdOk s.ppc s.rb.tail rest.length) ∧
    ConsOk s.cpc

/-- What holds of the pump at every moment when `rb->buffer` is `NULL`: the
consumer has popped nothing and nothing has been committed. -/
def NullInv (s : Pump) : Prop :=
  s.rb.buffer = none ∧ s.cpc = .pop ∧ s.committed = []

/-- The offset and request size of each `FT_Write` call `writeAllFt` makes for a
buffer of `len` bytes, when the calls before it reported the written counts
`ws`: each call starts where the counts before it sum up to and asks for all
that is left. -/
def callsOf (len : Nat) : Nat → List Nat → List (Nat × Nat)
  | _, [] => []
  | off, w :: ws => (off, len - off) :: callsOf len (off + w) ws

/-- A driver that accepts at most `m` bytes per call, without error. -/
def ftAtMost (m : Nat) : Nat → Nat → FtResp := fun _ req => ⟨FT_OK, min req m⟩

/-- A driver that accepts at most `m` bytes per call, except that call number
`z` (counted from 0) returns the status `st` and reports `w` bytes written. -/
def ftExceptAt (z st w m : Nat) : Nat → Nat → FtResp :=
  fun k req => if k = z then ⟨st, w⟩ else ⟨FT_OK, min req m⟩

/-- Where `head` and `tail` stand in a ring of `capacity` slots whose array has
`cap0` elements: `bufferEnd` is `capacity * sz` elements past `buffer`, and each
pointer has advanced by `sz` elements per commit or pop, starting over at
`bufferEnd`. -/
def PosInv (sz cap0 capacity : Nat) (s : Sys) : Prop :=
  (∃ slots : List block_t, s.rb.buffer = some slots ∧ slots.length = cap0) ∧
    s.rb.bufferEnd = capacity * sz ∧
    s.rb.tail = (s.committed.length % capacity) * sz ∧
    s.rb.head = (s.popped.length % capacity) * sz

/-- The lengths of the data blocks a file of `n` bytes is cut into when it is
read `bs` bytes at a time: `n / bs` full blocks, then the `n % bs` bytes that are
left, if any. -/
def chunkLens (bs n : Nat) : List Nat :=
  List.replicate (n / bs) bs ++ (if n % bs = 0 then [] else [n % bs])

/-- Length and end-of-file flag of every block committed so far. -/
def commitSig (s : Pump) : List (Nat × Int) := s.committed.map (fun b => (b.len, b.eof))

/-- Data blocks of the given total size, none flagged end-of-file. -/
def dataSig (bs m : Nat) : List (Nat × Int) := (chunkLens bs m).map (fun l => (l, 0))

/-- Number of `rbAcquireWriteSlot` calls of the producer that have returned,
read off its position: one per committed block, plus the one whose slot it is
filling or about to commit. -/
def acquired (s : Pump) : Nat :=
  s.committed.length +
    (match s.ppc with
     | .fill _ => 1
     | .commit _ => 1
     | _ => 0)

/-- Number of `rbAcquireWriteSlot` calls of the producer that return in the
course of a run. -/
def acquireCount (cfg : PumpCfg) : Pump → List Bool → Nat
  | _, [] => 0
  | s, who :: rest =>
    match (if who = true then producerCall cfg s else consumerCall cfg s) with
    | .error _ => 0
    | .ok s' =>
      (if who = true ∧ s.ppc = .acquire ∧ s'.ppc ≠ .acquire then 1 else 0) +
        acquireCount cfg s' rest

/-- What the producer has done of a file of `n` bytes read `bs` at a time, given
its position, `tail`, the slot at `tail`, the blocks committed and the number of
bytes not read yet. -/
def ProdAt (bs n : Nat) : ProdPc → Nat → Option block_t → List (Nat × Int) → Nat → Prop
  | .start, _, _, sig, left => left = n ∧ sig = []
  | .acquire, _, _, sig, left => sig = dataSig bs (n - left) ∧ (0 < left → (n - left) % bs = 0)
  | .fill p, tail, _, sig, left =>
    p = tail ∧ sig = dataSig bs (n - left) ∧ (0 < left → (n - left) % bs = 0)
  | .commit e, _, slot, sig, left =>
    ∃ b : block_t, slot = some b ∧ e = (if b.len = 0 then 1 else 0) ∧ b.len ≤ n - left ∧
      sig = dataSig bs (n - left - b.len) ∧
      ((b.len = 0 ∧ left = 0) ∨
        (1 ≤ b.len ∧ b.len ≤ bs ∧ (n - left - b.len) % bs = 0 ∧ (0 < left → b.len = bs)))
  | .done, _, _, sig, _ => sig = dataSig bs n ++ [(0, 1)]

/-- Where the bytes of `file` are once the producer has read all but `left` of
them, given its position, the observable content of the slot at `tail` and the
blocks committed: the payloads committed make up what was read, in order, and a
slot filled and not yet committed holds the bytes read last. -/
def PayAt (file : List Byte) : ProdPc → Option Blk → List Blk → Nat → Prop
  | .commit _, slot, cm, left =>
    ∃ v : Blk, slot = some v ∧
      (cm.map (fun b => b.payload)).flatten = file.take (file.length - left - v.len) ∧
      v.payload = (file.drop (file.length - left - v.len)).take v.len
  | .done, _, cm, _ => (cm.map (fun b => b.payload)).flatten = file
  | .start, _, cm, left =>
    (cm.map (fun b => b.payload)).flatten = file.take (file.length - left)
  | .acquire, _, cm, left =>
    (cm.map (fun b => b.payload)).flatten = file.take (file.length - left)
  | .fill _, _, cm, left =>
    (cm.map (fun b => b.payload)).flatten = file.take (file.length - left)

/-- The producer's progress on an opened file with content `file`, on a ring whose
`buffer` is not `NULL`. -/
def ProdInv (bs : Nat) (file : List Byte) (s : Pump) : Prop :=
  s.rb.buffer.isSome = true ∧ (∀ b ∈ s.committed, b.payload.length = b.len) ∧
    ∃ rest : List Byte, s.file = some rest ∧ rest.length ≤ file.length ∧
      rest = file.drop (file.length - rest.length) ∧
      ProdAt bs file.length s.ppc s.rb.tail (slotAt s.rb s.rb.tail) (commitSig s)
        rest.length ∧
      PayAt file s.ppc ((slotAt s.rb s.rb.tail).map (view s.heap)) s.committed rest.length

/-! ## elix_cli.c: `main` -/

/-- The constant `CLI_ARGUMENT_MIN` of `elix_cli.c`. -/
def CLI_ARGUMENT_MIN : Nat := 2

/-- The function `rbFree`, as far as the accesses it makes: it reads
`rb->buffer[i].data` for every `i < rb->capacity`. What it releases is not
tracked. -/
def rbFree (rb : ringBuffer_t) : Except Err Unit :=
  match rb.buffer with
  | none => if rb.capacity = 0 then .ok () else .error .ub
  | some slots => if rb.capacity ≤ slots.length then .ok () else .error .ub

/-- The two threads `main` starts, run under a schedule on the ring `rbInit`
leaves in `rBuffer`, whose prior content is `rb0`. The value `rbInit` returns is
dropped, as in `main`. -/
def mainWorkers (sz : Nat) (rb0 : ringBuffer_t) (alloc : Nat → Bool)
    (file : Option (List Byte)) (ft : Nat → Nat → FtResp) (fuel : Nat) (sched : List Bool) :
    Except Err Pump :=
  match rbInit sz alloc rb0 [] RING_BUFFER_CAPACITY RING_BUFFER_BLOCK_SIZE with
  | .error e => .error e
  | .ok (_, rb, heap) =>
    runPump ⟨sz, RING_BUFFER_BLOCK_SIZE, ft, fuel⟩ (Pump.start rb heap file) sched

/-- The function `main`: the exit code of the process, or `none` when a
`pthread_join` is still waiting once the schedule is used up. `setup k` is the
status of the `k`-th device call (`FT_Open`, `FT_ResetDevice`, `FT_Purge`,
`FT_SetUSBParameters`, `FT_SetLatencyTimer`, `FT_SetTimeouts`, `FT_SetBitMode`);
a status other than `FT_OK` ends the process in `dieFt` with `exit(1)`. -/
def main (sz argc : Nat) (setup : Nat → Nat) (rb0 : ringBuffer_t) (alloc : Nat → Bool)
    (file : Option (List Byte)) (ft : Nat → Nat → FtResp) (fuel : Nat) (sched : List Bool) :
    Except Err (Option Int) :=
  if argc < CLI_ARGUMENT_MIN then .ok (some 1)
  else if (List.range 7).any (fun k => decide (setup k ≠ FT_OK)) = true then .ok (some 1)
  else
    match mainWorkers sz rb0 alloc file ft fuel sched with
    | .error e => .error e
    | .ok s =>
      if s.ppc = .done ∧ (s.cpc = .done ∨ s.cpc = .failed) then
        match rbFree s.rb with
        | .error e => .error e
        | .ok _ => .ok (some 0)
      else .ok none

theorem rbInit_ok_zero {sz : Nat} {alloc : Nat → Bool} {rb0 : ringBuffer_t} {heap0 : Heap}
    {capacity blockSize : Nat} {rb : ringBuffer_t} {heap : Heap}
    (h : rbInit sz alloc rb0 heap0 capacity blockSize = .ok (0, rb, heap)) :
    rb.capacity = capacity ∧ rb.count = 0 ∧ rb.head = 0 ∧ rb.tail = 0 ∧
      rb.bufferEnd = (capacity * sz) % SIZE_MOD := by
  unfold rbInit at h
  split at h
  · simp at h
  · split at h
    · simp at h
    · simp only [Except.ok.injEq, Prod.mk.injEq, true_and] at h
      obtain ⟨hrb, -⟩ := h
      subst hrb
      simp

theorem rbCommitWriteSlot_ok {sz : Nat} {rb rb' : ringBuffer_t} {eof : Int}
    (h : rbCommitWriteSlot sz rb eof = .ok rb') :
    rb'.capacity = rb.capacity ∧ rb'.count = (rb.count + 1) % SIZE_MOD ∧
      (slotAt rb' rb.tail).isSome = true := by
  unfold rbCommitWriteSlot at h
  split at h
  · simp at h
  · rename_i slots hb
    split at h
    · simp at h
    · rename_i b hs
      simp only [Except.ok.injEq] at h
      subst h
      have hlt : rb.tail < slots.length := by
        by_contra hc
        rw [List.getElem?_eq_none (Nat.le_of_not_lt hc)] at hs
        simp at hs
      simp [slotAt, hlt]

theorem rbPop_ok {sz : Nat} {rb rb' : ringBuffer_t} {b : block_t}
    (h : rbPop sz rb = .ok (b, rb')) :
    rb.count ≠ 0 ∧ rb'.capacity = rb.capacity ∧
      rb'.count = (rb.count + SIZE_MOD - 1) % SIZE_MOD := by
  unfold rbPop at h
  split at h
  · simp at h
  · rename_i hc
    split at h
    · simp at h
    · simp only [Except.ok.injEq, Prod.mk.injEq] at h
      obtain ⟨-, hrb⟩ := h
      subst hrb
      exact ⟨hc, rfl, rfl⟩

theorem fillSlot_ok {rb rb' : ringBuffer_t} {heap heap' : Heap} {p : Nat} {bytes : List Byte}
    (h : fillSlot rb heap p bytes = .ok (rb', heap')) :
    rb'.capacity = rb.capacity ∧ rb'.count = rb.count := by
  unfold fillSlot at h
  split at h
  · simp at h
  · split at h
    · simp at h
    · split at h
      · simp at h
      · simp only [Except.ok.injEq, Prod.mk.injEq] at h
        obtain ⟨hrb, -⟩ := h
        subst hrb
        exact ⟨rfl, rfl⟩

theorem step_CountInv {sz capacity : Nat} (hcap : capacity < SIZE_MOD) {s s' : Sys} {op : Op}
    (hinv : CountInv capacity s) (h : step sz s op = .ok s') : CountInv capacity s' := by
  obtain ⟨hc, hle, hres, hlog⟩ := hinv
  cases op with
  | acquire =>
    simp only [step, rbAcquireWriteSlot] at h
    split at h
    · simp at h
    · rename_i p hp
      split at hp
      · simp at hp
      · rename_i hne
        simp only [Except.ok.injEq] at h
        subst h
        refine ⟨hc, hle, fun _ => ?_, hlog⟩
        show s.rb.count < capacity
        rw [hc] at hne
        omega
  | fill bytes =>
    simp only [step] at h
    split at h
    · simp at h
    · rename_i p hp
      split at h
      · simp at h
      · rename_i rb' heap' hf
        obtain ⟨h1, h2⟩ := fillSlot_ok hf
        simp only [Except.ok.injEq] at h
        subst h
        refine ⟨h1.trans hc, ?_, fun hr => ?_, ?_⟩
        · show rb'.count ≤ capacity
          omega
        · show rb'.count < capacity
          have := hres hr
          omega
        · show rb'.count + s.popped.length = s.committed.length
          omega
  | commit eof =>
    simp only [step] at h
    split at h
    · simp at h
    · rename_i p hp
      split at h
      · simp at h
      · rename_i rb' hcm
        obtain ⟨h1, h2, h3⟩ := rbCommitWriteSlot_ok hcm
        simp only [Except.ok.injEq] at h
        subst h
        have hlt : s.rb.count < capacity := hres (by simp [hp])
        have hmod : (s.rb.count + 1) % SIZE_MOD = s.rb.count + 1 :=
          Nat.mod_eq_of_lt (by omega)
        obtain ⟨b, hb⟩ := Option.isSome_iff_exists.mp h3
        refine ⟨h1.trans hc, ?_, fun hr => ?_, ?_⟩
        · show rb'.count ≤ capacity
          omega
        · simp at hr
        · show rb'.count + s.popped.length =
            (s.committed ++ ((slotAt rb' s.rb.tail).map (view s.heap)).toList).length
          simp [hb]
          omega
  | pop =>
    simp only [step] at h
    split at h
    · simp at h
    · rename_i b rb' hp
      obtain ⟨h0, h1, h2⟩ := rbPop_ok hp
      simp only [Except.ok.injEq] at h
      subst h
      have hmod : (s.rb.count + SIZE_MOD - 1) % SIZE_MOD = s.rb.count - 1 := by
        have : s.rb.count + SIZE_MOD - 1 = (s.rb.count - 1) + SIZE_MOD := by omega
        rw [this, Nat.add_mod_right]
        exact Nat.mod_eq_of_lt (by omega)
      refine ⟨h1.trans hc, ?_, fun hr => ?_, ?_⟩
      · show rb'.count ≤ capacity
        omega
      · show rb'.count < capacity
        omega
      · show rb'.count + (s.popped ++ [view s.heap b]).length = s.committed.length
        simp
        omega

theorem runOps_CountInv {sz capacity : Nat} (hcap : capacity < SIZE_MOD) (ops : List Op) :
    ∀ {s s' : Sys}, CountInv capacity s → runOps sz s ops = .ok s' → CountInv capacity s' := by
  induction ops with
  | nil =>
    intro s s' hinv h
    simp only [runOps, Except.ok.injEq] at h
    exact h ▸ hinv
  | cons op ops ih =>
    intro s s' hinv h
    simp only [runOps] at h
    split at h
    · simp at h
    · rename_i s1 hs1
      exact ih (step_CountInv hcap hinv hs1) h

/-- C2. Starting from the state a successful `rbInit` produces, after any
sequence of acquire / fill / commit / pop calls in which no call is blocked and
every commit follows an acquire, `count` is at most `capacity`; it equals the
number of blocks committed minus the number popped, so the `size_t` counter has
wrapped neither below zero nor past its maximum. -/
theorem count_within_capacity (sz : Nat) (alloc : Nat → Bool) (rb0 : ringBuffer_t)
    (heap0 : Heap) (capacity blockSize : Nat) (rb : ringBuffer_t) (heap : Heap)
    (ops : List Op) (s : Sys)
    (hcap : capacity < SIZE_MOD)
    (hinit : rbInit sz alloc rb0 heap0 capacity blockSize = .ok (0, rb, heap))
    (hrun : runOps sz (Sys.start rb heap) ops = .ok s) :
    s.rb.capacity = capacity ∧ s.rb.count ≤ s.rb.capacity ∧
      s.rb.count + s.popped.length = s.committed.length := by
  obtain ⟨h1, h2, -⟩ := rbInit_ok_zero hinit
  have h0 : CountInv capacity (Sys.start rb heap) := by
    refine ⟨h1, ?_, ?_, ?_⟩
    · show rb.count ≤ capacity
      omega
    · intro hr
      simp [Sys.start] at hr
    · show rb.count + 0 = 0
      omega
  obtain ⟨ha, hb, -, hd⟩ := runOps_CountInv hcap ops h0 hrun
  exact ⟨ha, ha ▸ hb, hd⟩

/-- Witness of C2: a ring of capacity 1 on a 64-bit target; a first block is
committed and popped, then a second one is committed, which fills the ring
again after `tail` has wrapped around. -/
theorem count_within_capacity_witness :
    (1 < SIZE_MOD ∧
      rbInit sizeofBlock64 (fun _ => true) ⟨none, 0, 1, 0, 0, 0⟩ [] 1 1 =
        .ok (0, ⟨some [⟨1, 0, 0⟩], 24, 1, 0, 0, 0⟩, [[0]]) ∧
      runOps sizeofBlock64 (Sys.start ⟨some [⟨1, 0, 0⟩], 24, 1, 0, 0, 0⟩ [[0]])
          [.acquire, .fill [7], .commit 0, .pop, .acquire, .fill [8], .commit 1] =
        .ok ⟨⟨some [⟨1, 1, 1⟩], 24, 1, 1, 0, 0⟩, [[8]], none, some (0, ⟨1, 1, 0⟩),
          [⟨1, [7], 0⟩, ⟨1, [8], 1⟩], [⟨1, [7], 0⟩]⟩) ∧
    ((1 : Nat) = 1 ∧ (1 : Nat) ≤ 1 ∧
      1 + [(⟨1, [7], 0⟩ : Blk)].length = [(⟨1, [7], 0⟩ : Blk), ⟨1, [8], 1⟩].length) :=
  ⟨⟨by decide, by decide, by decide⟩,
    count_within_capacity sizeofBlock64 (fun _ => true) ⟨none, 0, 1, 0, 0, 0⟩ [] 1 1
      ⟨some [⟨1, 0, 0⟩], 24, 1, 0, 0, 0⟩ [[0]]
      [.acquire, .fill [7], .commit 0, .pop, .acquire, .fill [8], .commit 1]
      ⟨⟨some [⟨1, 1, 1⟩], 24, 1, 1, 0, 0⟩, [[8]], none, some (0, ⟨1, 1, 0⟩),
        [⟨1, [7], 0⟩, ⟨1, [8], 1⟩], [⟨1, [7], 0⟩]⟩
      (by decide) (by decide) (by decide)⟩

/-! ## The pump of `main` on a file of more than six blocks -/

theorem writeAllFtLoop_acceptAll (buf : List Byte) (len : Nat) :
    ∀ (fuel offset : Nat) (dev dev' : FtDev) (r : Int),
      writeAllFtLoop ftAcceptAll buf len fuel offset dev = .ok (r, dev') → r = 1 := by
  intro fuel
  induction fuel with
  | zero =>
    intro offset dev dev' r h
    simp only [writeAllFtLoop] at h
    split at h
    · simp at h
    · simp only [Except.ok.injEq, Prod.mk.injEq] at h
      exact h.1.symm
  | succ n ih =>
    intro offset dev dev' r h
    simp only [writeAllFtLoop] at h
    split at h
    · split at h
      · rename_i hst
        simp [FT_Write, ftAcceptAll] at hst
      · split at h
        · exact ih _ _ _ _ h
        · exact ih _ _ _ _ h
    · simp only [Except.ok.injEq, Prod.mk.injEq] at h
      exact h.1.symm

theorem SlotsOk_set (b' : block_t) {rb : ringBuffer_t} {slots : List block_t} {b : block_t}
    {p : Nat} (hrb : SlotsOk rb) (hb : rb.buffer = some slots) (hp : slots[p]? = some b)
    (hd : b'.data = b.data) (he : b'.eof = 0) (rb' : ringBuffer_t)
    (hbuf : rb'.buffer = some (slots.set p b')) (hend : rb'.bufferEnd = rb.bufferEnd) :
    SlotsOk rb' := by
  intro slots' hs'
  obtain ⟨h1, h2, h3⟩ := hrb slots hb
  rw [hbuf] at hs'
  simp only [Option.some.injEq] at hs'
  subst hs'
  refine ⟨hend.trans h1, ?_, ?_⟩
  · intro q c hq
    rw [List.getElem?_set] at hq
    split at hq
    · split at hq
      · simp only [Option.some.injEq] at hq
        exact hq ▸ he
      · simp at hq
    · exact h2 q c hq
  · intro c hq
    rw [List.getElem?_set] at hq
    split at hq
    · rename_i hpe
      split at hq
      · simp only [Option.some.injEq] at hq
        subst hq
        rw [hd]
        exact h3 b (hpe ▸ hp)
      · simp at hq
    · exact h3 c hq

theorem producerCall_buffer {cfg : PumpCfg} {s s' : Pump}
    (hs : producerCall cfg s = .ok s') : s'.rb.buffer.isSome = s.rb.buffer.isSome := by
  unfold producerCall at hs
  split at hs
  · split at hs
    · simp only [Except.ok.injEq] at hs
      rw [← hs]
    · simp only [Except.ok.injEq] at hs
      rw [← hs]
  · split at hs
    · simp only [Except.ok.injEq] at hs
      rw [← hs]
    · simp at hs
    · split at hs
      · simp only [Except.ok.injEq] at hs
        rw [← hs]
      · simp only [Except.ok.injEq] at hs
        rw [← hs]
  · dsimp only at hs
    split at hs
    · simp at hs
    · rename_i rb' heap' hf
      simp only [Except.ok.injEq] at hs
      rw [← hs]
      unfold fillSlot at hf
      split at hf
      · simp at hf
      · rename_i slots hbuf
        split at hf
        · simp at hf
        · split at hf
          · simp at hf
          · simp only [Except.ok.injEq, Prod.mk.injEq] at hf
            rw [← hf.1, hbuf]
            rfl
  · split at hs
    · simp at hs
    · rename_i rb' hcm
      simp only [Except.ok.injEq] at hs
      rw [← hs]
      unfold rbCommitWriteSlot at hcm
      split at hcm
      · simp at hcm
      · rename_i slots hbuf
        split at hcm
        · simp at hcm
        · simp only [Except.ok.injEq] at hcm
          rw [← hcm, hbuf]
          rfl
  · simp only [Except.ok.injEq] at hs
    rw [← hs]

theorem producerCall_StuckInv {cfg : PumpCfg} (hsz : cfg.sz = 24) (hbs : cfg.blockSize = 65536)
    {s s' : Pump} (hsome : s.rb.buffer.isSome = true) (h : StuckInv s)
    (hs : producerCall cfg s = .ok s') : StuckInv s' := by
  obtain ⟨hslots, ⟨rest, hfile, hprod⟩, hcons⟩ := h
  unfold producerCall at hs
  split at hs
  · -- start
    rename_i hpc
    rw [hpc] at hprod
    simp only [ProdOk] at hprod
    rw [hfile] at hs
    simp only [Except.ok.injEq] at hs
    subst hs
    exact ⟨hslots, ⟨rest, rfl, 0, by omega, by simpa using hprod.1, by simpa using hprod.2⟩, hcons⟩
  · -- acquire
    rename_i hpc
    rw [hpc] at hprod
    simp only [ProdOk] at hprod
    obtain ⟨c, hc, ht, hn⟩ := hprod
    split at hs
    · simp only [Except.ok.injEq] at hs
      subst hs
      exact ⟨hslots, ⟨rest, hfile, by rw [hpc]; exact ⟨c, hc, ht, hn⟩⟩, hcons⟩
    · simp at hs
    · rename_i block hb
      simp only [rbAcquireWriteSlot] at hb
      split at hb
      · simp at hb
      · simp only [Except.ok.injEq] at hb
        have hnn : ¬ (s.rb.buffer.isNone = true ∧ block = 0) := by
          intro hh
          have h1 := hh.1
          rw [Option.isNone_iff_eq_none] at h1
          rw [h1] at hsome
          simp at hsome
        rw [if_neg hnn] at hs
        simp only [Except.ok.injEq] at hs
        subst hs
        exact ⟨hslots, ⟨rest, hfile, c, hc, by rw [← hb]; exact ht, ht, hn⟩, hcons⟩
  · -- fill
    rename_i block hpc
    rw [hpc] at hprod
    simp only [ProdOk] at hprod
    obtain ⟨c, hc, hblock, ht, hn⟩ := hprod
    have hrest : s.file.getD [] = rest := by rw [hfile]; rfl
    simp only [hrest, hbs] at hs
    have hmin : 0 < min 65536 rest.length := by omega
    split at hs
    · simp at hs
    · rename_i rb' heap' hf
      simp only [Except.ok.injEq] at hs
      subst hs
      unfold fillSlot at hf
      split at hf
      · simp at hf
      · rename_i slots hbuf
        split at hf
        · simp at hf
        · rename_i b hb
          have hlen : (List.take (min 65536 rest.length) rest).length ≠ 0 := by
            rw [List.length_take]
            omega
          rw [if_neg hlen] at hf
          split at hf
          · simp at hf
          · rename_i heap'' hst
            simp only [Except.ok.injEq, Prod.mk.injEq] at hf
            obtain ⟨hrb, -⟩ := hf
            subst hrb
            obtain ⟨h1, h2, h3⟩ := hslots slots hbuf
            have hc5 : c ≤ 5 := by
              by_contra hcc
              have hc6 : c = 6 := by omega
              subst hc6
              subst hblock
              have hd : b.data = 0 := h3 b hb
              rw [hd] at hst
              simp [Heap.store] at hst
            refine ⟨?_, ⟨rest.drop (min 65536 rest.length), rfl, ?_⟩, hcons⟩
            · exact SlotsOk_set { b with len := (List.take (min 65536 rest.length) rest).length }
                hslots hbuf hb rfl (h2 block b hb) _ rfl rfl
            · have hne : min 65536 rest.length ≠ 0 := by omega
              simp only [ProdOk, if_neg hne, true_and]
              refine ⟨c, hc5, ht, ?_⟩
              rw [List.length_drop]
              omega
  · -- commit
    rename_i eof hpc
    rw [hpc] at hprod
    simp only [ProdOk] at hprod
    obtain ⟨he, c, hc, ht, hn⟩ := hprod
    subst he
    split at hs
    · simp at hs
    · rename_i rb' hcm
      simp only [Except.ok.injEq] at hs
      subst hs
      unfold rbCommitWriteSlot at hcm
      split at hcm
      · simp at hcm
      · rename_i slots hbuf
        split at hcm
        · simp at hcm
        · rename_i b hb
          simp only [Except.ok.injEq] at hcm
          subst hcm
          obtain ⟨h1, h2, h3⟩ := hslots slots hbuf
          have hne : ¬ (s.rb.tail + cfg.sz = s.rb.bufferEnd) := by
            omega
          refine ⟨?_, ⟨rest, hfile, ?_⟩, hcons⟩
          · exact SlotsOk_set { b with eof := 0 } hslots hbuf hb rfl rfl _ rfl rfl
          · simp only [if_neg hne, ProdOk]
            show ∃ c', c' ≤ 6 ∧ s.rb.tail + cfg.sz = 24 * c' ∧ _
            exact ⟨c + 1, by omega, by omega, hn⟩
  · -- done
    rename_i hpc
    rw [hpc] at hprod
    simp [ProdOk] at hprod

theorem rbPop_frame {sz : Nat} {rb rb' : ringBuffer_t} {b : block_t}
    (h : rbPop sz rb = .ok (b, rb')) :
    slotAt rb rb.head = some b ∧ rb'.buffer = rb.buffer ∧ rb'.bufferEnd = rb.bufferEnd ∧
      rb'.tail = rb.tail := by
  unfold rbPop at h
  split at h
  · simp at h
  · split at h
    · simp at h
    · rename_i b0 hb
      simp only [Except.ok.injEq, Prod.mk.injEq] at h
      obtain ⟨hbb, hrb⟩ := h
      rw [← hrb, ← hbb]
      exact ⟨hb, rfl, rfl, rfl⟩

theorem consumerCall_StuckInv {cfg : PumpCfg} (hft : cfg.ft = ftAcceptAll) {s s' : Pump}
    (h : StuckInv s) (hs : consumerCall cfg s = .ok s') : StuckInv s' := by
  obtain ⟨hslots, hprod, hcons⟩ := h
  unfold consumerCall at hs
  cases hpc : s.cpc with
  | pop =>
    rw [hpc] at hs
    simp only at hs
    cases hp : rbPop cfg.sz s.rb with
    | error e =>
      rw [hp] at hs
      cases e with
      | blocked =>
        simp only [Except.ok.injEq] at hs
        exact hs ▸ ⟨hslots, hprod, hcons⟩
      | ub => simp at hs
      | misuse => simp at hs
      | fuel => simp at hs
    | ok r =>
      obtain ⟨b, rb'⟩ := r
      rw [hp] at hs
      simp only [Except.ok.injEq] at hs
      subst hs
      obtain ⟨hb, hbuf, hend, htl⟩ := rbPop_frame hp
      obtain ⟨rest, hfile, hpr⟩ := hprod
      refine ⟨fun sl hsl => ?_, ⟨rest, hfile, ?_⟩, ?_⟩
      · have hsl' : s.rb.buffer = some sl := hbuf ▸ hsl
        obtain ⟨h1, h2, h3⟩ := hslots sl hsl'
        exact ⟨hend.trans h1, h2, h3⟩
      · show ProdOk s.ppc rb'.tail rest.length
        rw [htl]
        exact hpr
      · show b.eof = 0
        unfold slotAt at hb
        split at hb
        · simp at hb
        · rename_i slots hbuf0
          exact (hslots slots hbuf0).2.1 _ _ hb
  | write block =>
    rw [hpc] at hs hcons
    simp only [ConsOk] at hcons
    have hne : ¬ (block.eof ≠ 0) := by simp [hcons]
    simp only [if_neg hne] at hs
    by_cases hlen : block.len > 0
    · rw [if_pos hlen] at hs
      cases hl : s.heap.load block.data with
      | none =>
        rw [hl] at hs
        simp at hs
      | some buf =>
        rw [hl] at hs
        simp only at hs
        cases hw : writeAllFt cfg.ft cfg.fuel s.dev buf (block.len % DWORD_MOD) with
        | error e =>
          rw [hw] at hs
          simp at hs
        | ok r =>
          obtain ⟨r, dev'⟩ := r
          rw [hw] at hs
          have hr : r = 1 := by
            unfold writeAllFt at hw
            rw [hft] at hw
            exact writeAllFtLoop_acceptAll _ _ _ _ _ _ _ hw
          subst hr
          simp only [one_ne_zero, if_false, Except.ok.injEq] at hs
          subst hs
          exact ⟨hslots, hprod, trivial⟩
    · rw [if_neg hlen] at hs
      simp only [Except.ok.injEq] at hs
      subst hs
      exact ⟨hslots, hprod, trivial⟩
  | done =>
    rw [hpc] at hcons
    simp [ConsOk] at hcons
  | failed =>
    rw [hpc] at hcons
    simp [ConsOk] at hcons

theorem consumerCall_frame {cfg : PumpCfg} {s s' : Pump} (hs : consumerCall cfg s = .ok s') :
    s'.file = s.file ∧ s'.ppc = s.ppc ∧ s'.committed = s.committed ∧
      s'.rb.tail = s.rb.tail ∧ s'.rb.buffer = s.rb.buffer ∧ s'.heap = s.heap := by
  unfold consumerCall at hs
  cases hpc : s.cpc with
  | pop =>
    rw [hpc] at hs
    simp only at hs
    cases hp : rbPop cfg.sz s.rb with
    | error e =>
      rw [hp] at hs
      cases e with
      | blocked =>
        simp only [Except.ok.injEq] at hs
        rw [← hs]
        exact ⟨rfl, rfl, rfl, rfl, rfl, rfl⟩
      | ub => simp at hs
      | misuse => simp at hs
      | fuel => simp at hs
    | ok r =>
      obtain ⟨b, rb'⟩ := r
      rw [hp] at hs
      simp only [Except.ok.injEq] at hs
      obtain ⟨-, hbuf, -, htl⟩ := rbPop_frame hp
      rw [← hs]
      exact ⟨rfl, rfl, rfl, htl, hbuf, rfl⟩
  | write block =>
    rw [hpc] at hs
    simp only at hs
    by_cases hlen : block.len > 0
    · rw [if_pos hlen] at hs
      cases hl : s.heap.load block.data with
      | none =>
        rw [hl] at hs
        simp at hs
      | some buf =>
        rw [hl] at hs
        simp only at hs
        cases hw : writeAllFt cfg.ft cfg.fuel s.dev buf (block.len % DWORD_MOD) with
        | error e =>
          rw [hw] at hs
          simp at hs
        | ok r =>
          obtain ⟨r, dev'⟩ := r
          rw [hw] at hs
          simp only at hs
          split at hs
          · simp only [Except.ok.injEq] at hs
            rw [← hs]
            exact ⟨rfl, rfl, rfl, rfl, rfl, rfl⟩
          · simp only [Except.ok.injEq] at hs
            rw [← hs]
            exact ⟨rfl, rfl, rfl, rfl, rfl, rfl⟩
    · rw [if_neg hlen] at hs
      simp only [Except.ok.injEq] at hs
      rw [← hs]
      exact ⟨rfl, rfl, rfl, rfl, rfl, rfl⟩
  | done =>
    rw [hpc] at hs
    simp only [Except.ok.injEq] at hs
    rw [← hs]
    exact ⟨rfl, rfl, rfl, rfl, rfl, rfl⟩
  | failed =>
    rw [hpc] at hs
    simp only [Except.ok.injEq] at hs
    rw [← hs]
    exact ⟨rfl, rfl, rfl, rfl, rfl, rfl⟩

theorem runPump_StuckInv {cfg : PumpCfg} (hsz : cfg.sz = 24) (hbs : cfg.blockSize = 65536)
    (hft : cfg.ft = ftAcceptAll) (sched : List Bool) :
    ∀ {s s' : Pump}, s.rb.buffer.isSome = true → StuckInv s →
      runPump cfg s sched = .ok s' → StuckInv s' := by
  induction sched with
  | nil =>
    intro s s' _ hinv h
    simp only [runPump, Except.ok.injEq] at h
    exact h ▸ hinv
  | cons who rest ih =>
    intro s s' hsome hinv h
    simp only [runPump] at h
    split at h
    · simp at h
    · rename_i s1 hs1
      split at hs1
      · exact ih ((producerCall_buffer hs1).trans hsome)
          (producerCall_StuckInv hsz hbs hsome hinv hs1) h
      · have hb := (consumerCall_frame hs1).2.2.2.2.1
        exact ih (by rw [hb]; exact hsome) (consumerCall_StuckInv hft hinv hs1) h

theorem producerCall_NullInv {cfg : PumpCfg} {s s' : Pump} (h : NullInv s)
    (hs : producerCall cfg s = .ok s') : NullInv s' := by
  obtain ⟨hbuf, hcpc, hcm⟩ := h
  unfold producerCall at hs
  split at hs
  · split at hs
    · simp only [Except.ok.injEq] at hs
      rw [← hs]
      exact ⟨hbuf, hcpc, hcm⟩
    · simp only [Except.ok.injEq] at hs
      rw [← hs]
      exact ⟨hbuf, hcpc, hcm⟩
  · split at hs
    · simp only [Except.ok.injEq] at hs
      rw [← hs]
      exact ⟨hbuf, hcpc, hcm⟩
    · simp at hs
    · split at hs
      · simp only [Except.ok.injEq] at hs
        rw [← hs]
        exact ⟨hbuf, hcpc, hcm⟩
      · simp only [Except.ok.injEq] at hs
        rw [← hs]
        exact ⟨hbuf, hcpc, hcm⟩
  · dsimp only at hs
    split at hs
    · simp at hs
    · rename_i rb' heap' hf
      simp [fillSlot, hbuf] at hf
  · split at hs
    · simp at hs
    · rename_i rb' hcm'
      simp [rbCommitWriteSlot, hbuf] at hcm'
  · simp only [Except.ok.injEq] at hs
    rw [← hs]
    exact ⟨hbuf, hcpc, hcm⟩

theorem consumerCall_NullInv {cfg : PumpCfg} {s s' : Pump} (h : NullInv s)
    (hs : consumerCall cfg s = .ok s') : NullInv s' := by
  obtain ⟨hbuf, hcpc, hcm⟩ := h
  unfold consumerCall at hs
  rw [hcpc] at hs
  simp only at hs
  cases hp : rbPop cfg.sz s.rb with
  | error e =>
    rw [hp] at hs
    cases e with
    | blocked =>
      simp only [Except.ok.injEq] at hs
      rw [← hs]
      exact ⟨hbuf, hcpc, hcm⟩
    | ub => simp at hs
    | misuse => simp at hs
    | fuel => simp at hs
  | ok r =>
    obtain ⟨b, rb'⟩ := r
    obtain ⟨hb, -, -, -⟩ := rbPop_frame hp
    simp [slotAt, hbuf] at hb

theorem runPump_NullInv {cfg : PumpCfg} (sched : List Bool) :
    ∀ {s s' : Pump}, NullInv s → runPump cfg s sched = .ok s' → NullInv s' := by
  induction sched with
  | nil =>
    intro s s' hinv h
    simp only [runPump, Except.ok.injEq] at h
    exact h ▸ hinv
  | cons who rest ih =>
    intro s s' hinv h
    simp only [runPump] at h
    split at h
    · simp at h
    · rename_i s1 hs1
      split at hs1
      · exact ih (producerCall_NullInv hinv hs1) h
      · exact ih (consumerCall_NullInv hinv hs1) h

theorem rbInitLoop_slots (alloc : Nat → Bool) (blockSize : Nat) :
    ∀ (todo i : Nat) (slots : List block_t) (heap : Heap) (slots' : List block_t)
      (heap' : Heap),
      rbInitLoop alloc blockSize todo i slots heap = .ok (slots', heap') →
      (∀ (p : Nat) (b : block_t), slots[p]? = some b → b.eof = 0) →
      (∀ (p : Nat) (b : block_t), slots'[p]? = some b → b.eof = 0) ∧
        (∀ p : Nat, i + todo ≤ p → slots'[p]? = slots[p]?) := by
  intro todo
  induction todo with
  | zero =>
    intro i slots heap slots' heap' h he
    simp only [rbInitLoop, Except.ok.injEq, Prod.mk.injEq] at h
    obtain ⟨h1, -⟩ := h
    subst h1
    exact ⟨he, fun _ _ => rfl⟩
  | succ n ih =>
    intro i slots heap slots' heap' h he
    simp only [rbInitLoop] at h
    by_cases hi : i < slots.length
    · rw [if_pos hi] at h
      have he' : ∀ (p : Nat) (b : block_t),
          (slots.set i ⟨(malloc (alloc (i + 1)) blockSize heap).1, 0, 0⟩)[p]? = some b →
            b.eof = 0 := by
        intro p b hp
        rw [List.getElem?_set] at hp
        by_cases hip : i = p
        · rw [if_pos hip, if_pos hi] at hp
          simp only [Option.some.injEq] at hp
          subst hp
          rfl
        · rw [if_neg hip] at hp
          exact he p b hp
      obtain ⟨h1, h2⟩ := ih _ _ _ _ _ h he'
      refine ⟨h1, fun p hp => ?_⟩
      rw [h2 p (by omega), List.getElem?_set_ne (by omega)]
    · rw [if_neg hi] at h
      simp at h

theorem initAndPump_ok {sz cap0 capacity blockSize : Nat} {file : List Byte}
    {sched : List Bool} {s : Pump}
    (h : initAndPump sz cap0 capacity blockSize file sched = .ok s) :
    ∃ (rb : ringBuffer_t) (heap : Heap),
      runPump ⟨sz, blockSize, ftAcceptAll, blockSize + 1⟩ (Pump.start rb heap (some file)) sched =
        .ok s ∧
      rb.tail = 0 ∧
      ∀ slots : List block_t, rb.buffer = some slots →
        rb.bufferEnd = (capacity * sz) % SIZE_MOD ∧
        (∀ (p : Nat) (b : block_t), slots[p]? = some b → b.eof = 0) ∧
        (∀ (p : Nat) (b : block_t), capacity ≤ p → slots[p]? = some b → b.data = 0) := by
  unfold initAndPump rbInit at h
  split at h
  · simp at h
  · rename_i st rb heap hinit
    refine ⟨rb, heap, h, ?_⟩
    split at hinit
    · simp only [Except.ok.injEq, Prod.mk.injEq] at hinit
      obtain ⟨-, hrb, -⟩ := hinit
      subst hrb
      exact ⟨rfl, fun slots hs => by simp at hs⟩
    · rename_i slots hcal
      split at hinit
      · simp at hinit
      · rename_i slots' heap' hloop
        simp only [Except.ok.injEq, Prod.mk.injEq] at hinit
        obtain ⟨-, hrb, -⟩ := hinit
        subst hrb
        have hrep : slots = List.replicate cap0 zeroBlock := by
          unfold calloc at hcal
          split at hcal
          · simp only [Option.some.injEq] at hcal
            exact hcal.symm
          · simp at hcal
        have hz : ∀ (p : Nat) (b : block_t), slots[p]? = some b → b = zeroBlock := by
          intro p b hp
          rw [hrep, List.getElem?_replicate] at hp
          split at hp
          · simp only [Option.some.injEq] at hp
            exact hp.symm
          · simp at hp
        obtain ⟨h1, h2⟩ := rbInitLoop_slots _ _ _ _ _ _ _ _ hloop
          (fun p b hp => by rw [hz p b hp]; rfl)
        refine ⟨rfl, fun sl hsl => ?_⟩
        simp only [Option.some.injEq] at hsl
        subst hsl
        refine ⟨rfl, h1, fun p b hp hb => ?_⟩
        rw [h2 p (by omega)] at hb
        rw [hz p b hb]
        rfl

/-- On a 64-bit target, with the constants of `main` and whatever value the
uninitialised `rb->capacity` held, no schedule lets the consumer return when the
file is longer than six blocks, and the producer returns only through its
`!block` exit, after a failed `calloc`, with nothing committed: the producer's
seventh slot is element 144 of the array, which either does not exist or has no
payload storage. -/
theorem main_pump_never_completes (cap0 : Nat) (file : List Byte) (sched : List Bool)
    (s : Pump) (hlen : 6 * RING_BUFFER_BLOCK_SIZE < file.length)
    (h : initAndPump sizeofBlock64 cap0 RING_BUFFER_CAPACITY RING_BUFFER_BLOCK_SIZE file sched =
      .ok s) :
    (s.ppc = .done → s.rb.buffer = none ∧ s.committed = []) ∧ s.cpc ≠ .done := by
  have hlen' : 6 * 65536 < file.length := hlen
  obtain ⟨rb, heap, hrun, ht, hsl⟩ := initAndPump_ok h
  cases hbuf : rb.buffer with
  | none =>
    have h0 : NullInv (Pump.start rb heap (some file)) := ⟨hbuf, rfl, rfl⟩
    obtain ⟨h1, h2, h3⟩ := runPump_NullInv sched h0 hrun
    refine ⟨fun _ => ⟨h1, h3⟩, ?_⟩
    rw [h2]
    decide
  | some slots0 =>
    have hok : SlotsOk rb := by
      intro slots hs
      obtain ⟨h1, h2, h3⟩ := hsl slots hs
      refine ⟨h1.trans ?_, h2, fun b hb => h3 144 b ?_ hb⟩
      · simp [RING_BUFFER_CAPACITY, sizeofBlock64, SIZE_MOD]
      · simp [RING_BUFFER_CAPACITY]
    have h0 : StuckInv (Pump.start rb heap (some file)) :=
      ⟨hok, ⟨file, rfl, ht, hlen'⟩, trivial⟩
    have hsome : (Pump.start rb heap (some file)).rb.buffer.isSome = true := by
      show rb.buffer.isSome = true
      rw [hbuf]
      rfl
    obtain ⟨-, ⟨rest, -, hp⟩, hc⟩ := runPump_StuckInv rfl rfl rfl sched hsome h0 hrun
    constructor
    · intro hd
      rw [hd] at hp
      exact absurd hp (by simp [ProdOk])
    · intro hd
      rw [hd] at hc
      exact hc

/-! ## Where commit and pop move `tail` and `head` -/

theorem rbCommitWriteSlot_tail {sz : Nat} {rb rb' : ringBuffer_t} {eof : Int}
    (h : rbCommitWriteSlot sz rb eof = .ok rb') :
    rb'.tail = if rb.tail + sz = rb.bufferEnd then 0 else rb.tail + sz := by
  unfold rbCommitWriteSlot at h
  split at h
  · simp at h
  · split at h
    · simp at h
    · simp only [Except.ok.injEq] at h
      rw [← h]

theorem rbPop_head {sz : Nat} {rb rb' : ringBuffer_t} {b : block_t}
    (h : rbPop sz rb = .ok (b, rb')) :
    rb'.head = if rb.head + sz = rb.bufferEnd then 0 else rb.head + sz := by
  unfold rbPop at h
  split at h
  · simp at h
  · split at h
    · simp at h
    · simp only [Except.ok.injEq, Prod.mk.injEq] at h
      rw [← h.2]

theorem stride_misses_next_slot {capacity t : Nat} (hcap : 2 ≤ capacity)
    (hfit : capacity * 24 < SIZE_MOD) (ht : t < capacity) :
    (if t + 24 = (capacity * 24) % SIZE_MOD then 0 else t + 24) ≠ (t + 1) % capacity := by
  rw [Nat.mod_eq_of_lt hfit]
  have hne : ¬ (t + 24 = capacity * 24) := by omega
  rw [if_neg hne]
  have hle : (t + 1) % capacity ≤ t + 1 := Nat.mod_le _ _
  omega

/-! ## Behaviour at concrete inputs -/

/-- On a ring of capacity 2 whose array has exactly 2 elements (64-bit
target), the producer's second `rbAcquireWriteSlot` returns `rb->buffer + 24`,
and filling that slot is an access outside the array: the second block is never
stored. The same happens at the seventh block for capacity 128. -/
theorem fifo_second_slot_outside_array :
    (initAndRun sizeofBlock64 2 2 1 (produce [7] ++ [.acquire])).toOption.map
        (fun s => (s.reserved, s.committed, s.popped)) =
      some (some 24, [⟨1, [7], 0⟩], []) ∧
    initAndRun sizeofBlock64 2 2 1 (produce [7] ++ [.acquire, .fill [8]]) = .error .ub ∧
    initAndRun sizeofBlock64 2 2 1 (produce [7] ++ [.pop, .acquire, .fill [8]]) = .error .ub ∧
    initAndRun sizeofBlock64 128 128 1 (sixBlocks ++ [.acquire, .fill [7]]) = .error .ub := by
  refine ⟨by decide, by decide, by decide, by decide!⟩

/-- C3. After one commit on a ring of capacity 2 (64-bit target) `tail` is 24
elements past `rb->buffer`, and after the pop `head` is too: both lie outside
the 2 slots. For capacity 128, six commits bring `tail` to element 144. -/
theorem head_tail_leave_the_ring :
    (initAndRun sizeofBlock64 2 2 1 (produce [7])).toOption.map
        (fun s => (s.rb.capacity, s.rb.head, s.rb.tail)) = some (2, 0, 24) ∧
    (initAndRun sizeofBlock64 2 2 1 (produce [7] ++ [.pop])).toOption.map
        (fun s => (s.rb.capacity, s.rb.head, s.rb.tail)) = some (2, 24, 24) ∧
    (initAndRun sizeofBlock64 128 128 1 sixBlocks).toOption.map
        (fun s => (s.rb.capacity, s.rb.head, s.rb.tail)) = some (128, 0, 144) := by
  refine ⟨by decide, by decide, by decide!⟩

/-- C4. On a ring of capacity 1: after a block is committed and popped, the
consumer holds slot 0 and the producer's next `rbAcquireWriteSlot` returns slot
0 as well; the producer's fill then changes the bytes the consumer's block
points to. -/
theorem producer_handed_consumer_slot :
    (initAndRun sizeofBlock64 1 1 1 (produce [7] ++ [.pop, .acquire])).toOption.map
        (fun s => (s.reserved, s.held)) = some (some 0, some (0, ⟨1, 1, 0⟩)) ∧
    (initAndRun sizeofBlock64 1 1 1 (produce [7] ++ [.pop, .acquire, .fill [9]])).toOption.map
        (fun s => (s.popped, s.held.map (fun h => view s.heap h.2))) =
      some ([⟨1, [7], 0⟩], some ⟨1, [9], 0⟩) := by
  refine ⟨by decide, by decide⟩

/-- C5. With a ring of capacity 2 (64-bit target), block size 1 and a file of
one byte, the producer commits the data block and then touches the slot at
`rb->buffer + 24` for the end-of-file block, outside the array, whether or not
the consumer has run; no end-of-file block is committed or popped. For capacity
128 the same happens at the seventh block; with the constants of `main` and a
file of 393217 bytes, no schedule lets the consumer return, and the producer
returns only through its `!block` exit after a failed `calloc`, with nothing
committed. -/
theorem eof_block_never_committed :
    initAndPump sizeofBlock64 2 2 1 [10] [true, true, true, true, true, true] = .error .ub ∧
    initAndPump sizeofBlock64 2 2 1 [10]
      [false, true, true, true, true, false, false, false, true, true] = .error .ub ∧
    (initAndPump sizeofBlock64 2 2 1 [10]
      [false, true, true, true, true, false, false, false, true]).toOption.map
        (fun s => (s.ppc, s.cpc, s.committed, s.popped, s.dev.received)) =
      some (.fill 24, .pop, [⟨1, [10], 0⟩], [⟨1, [10], 0⟩], [10]) ∧
    initAndPump sizeofBlock64 128 128 1 [1, 2, 3, 4, 5, 6] (List.replicate 21 true) =
      .error .ub ∧
    (∀ (cap0 : Nat) (sched : List Bool) (s : Pump),
      initAndPump sizeofBlock64 cap0 RING_BUFFER_CAPACITY RING_BUFFER_BLOCK_SIZE
          (List.replicate 393217 0) sched = .ok s →
        (s.ppc = .done → s.rb.buffer = none ∧ s.committed = []) ∧ s.cpc ≠ .done) := by
  refine ⟨by decide, by decide, by decide, by decide!, fun cap0 sched s h => ?_⟩
  exact main_pump_never_completes cap0 _ sched s (by rw [List.length_replicate]; decide) h

/-- C6. With a ring of capacity 1, block size 1 and the file `[10, 20]`, under a
schedule in which the producer refills the slot between the consumer's `rbPop`
and its write, both workers finish and the sink has received `[20, 20]`. With
the constants of `main` and a file of 393217 bytes, the consumer never reaches
the end-of-file block, under any schedule. -/
theorem sink_receives_overwritten_block :
    (initAndPump sizeofBlock64 1 1 1 [10, 20]
      [true, true, true, true, false, true, true, true, false, false, false,
       true, true, true, false, false]).toOption.map
        (fun s => (s.ppc, s.cpc, s.dev.received)) =
      some (.done, .done, [20, 20]) ∧
    (∀ (cap0 : Nat) (sched : List Bool) (s : Pump),
      initAndPump sizeofBlock64 cap0 RING_BUFFER_CAPACITY RING_BUFFER_BLOCK_SIZE
          (List.replicate 393217 0) sched = .ok s →
        s.cpc ≠ .done) := by
  refine ⟨by decide, fun cap0 sched s h => ?_⟩
  exact (main_pump_never_completes cap0 _ sched s (by rw [List.length_replicate]; decide) h).2

/-- C7. Called on a `*rb` whose `capacity` field holds 5, `rbInit(rb, 2, 4)`
returns 0 with a slot array of 5 elements, three of them without storage;
called on one whose field holds 1, it writes past the 1-element array. -/
theorem rbInit_allocates_prior_capacity :
    rbInit sizeofBlock64 (fun _ => true) ⟨none, 0, 5, 0, 0, 0⟩ [] 2 4 =
      .ok (0, ⟨some [⟨1, 0, 0⟩, ⟨2, 0, 0⟩, ⟨0, 0, 0⟩, ⟨0, 0, 0⟩, ⟨0, 0, 0⟩], 48, 2, 0, 0, 0⟩,
        [[0, 0, 0, 0], [0, 0, 0, 0]]) ∧
    rbInit sizeofBlock64 (fun _ => true) ⟨none, 0, 1, 0, 0, 0⟩ [] 2 4 = .error .ub := by
  refine ⟨by decide, by decide⟩

/-- C8. When the `malloc` for the second block fails, `rbInit(rb, 2, 4)` returns
0: the second slot has `data = NULL` and the first block's storage stays
allocated. -/
theorem rbInit_ignores_malloc_failure :
    rbInit sizeofBlock64 (fun k => decide (k ≠ 2)) ⟨none, 0, 2, 0, 0, 0⟩ [] 2 4 =
      .ok (0, ⟨some [⟨1, 0, 0⟩, ⟨0, 0, 0⟩], 48, 2, 0, 0, 0⟩, [[0, 0, 0, 0]]) := by
  decide

/-- C9. On the ring `rbInit` builds for capacity 3 (64-bit target), with `tail`
at slot 0, `rbCommitWriteSlot` moves `tail` to element 24, not to slot 1. More
generally, on a 64-bit target, for every capacity of at least 2 and every `tail`
at a slot index `t < capacity`, the new `tail` is not `(t + 1) mod capacity`. -/
theorem commit_moves_tail_by_sizeof :
    rbInit sizeofBlock64 (fun _ => true) ⟨none, 0, 3, 0, 0, 0⟩ [] 3 1 =
      .ok (0, ring3, [[0], [0], [0]]) ∧
    rbCommitWriteSlot sizeofBlock64 ring3 1 =
      .ok ⟨some [⟨1, 0, 1⟩, ⟨2, 0, 0⟩, ⟨3, 0, 0⟩], 72, 3, 1, 0, 24⟩ ∧
    (ring3.tail + 1) % ring3.capacity = 1 ∧
    (∀ (slots : List block_t) (capacity count head t : Nat) (eof : Int) (rb' : ringBuffer_t),
      2 ≤ capacity → capacity * sizeofBlock64 < SIZE_MOD → t < capacity →
      rbCommitWriteSlot sizeofBlock64
          ⟨some slots, (capacity * sizeofBlock64) % SIZE_MOD, capacity, count, head, t⟩ eof =
        .ok rb' →
      rb'.tail ≠ (t + 1) % capacity) := by
  refine ⟨by decide, by decide, by decide, ?_⟩
  intro slots capacity count head t eof rb' hcap hfit ht h
  rw [rbCommitWriteSlot_tail h]
  exact stride_misses_next_slot hcap hfit ht

/-- C10. On the ring `rbInit` builds for capacity 3 (64-bit target), once one
block is committed, with `head` at slot 0, `rbPop` returns the block of slot 0
and moves `head` to element 24, not to slot 1. More generally, on a 64-bit
target, for every capacity of at least 2 and every `head` at a slot index
`h < capacity`, the new `head` is not `(h + 1) mod capacity`. -/
theorem pop_moves_head_by_sizeof :
    (runOps sizeofBlock64 (Sys.start ring3 [[0], [0], [0]]) (produce [7])).toOption.map
        (fun s => s.rb) = some ring3one ∧
    rbPop sizeofBlock64 ring3one =
      .ok (⟨1, 1, 0⟩, ⟨some [⟨1, 1, 0⟩, ⟨2, 0, 0⟩, ⟨3, 0, 0⟩], 72, 3, 0, 24, 24⟩) ∧
    (ring3one.head + 1) % ring3one.capacity = 1 ∧
    (∀ (slots : List block_t) (capacity count h tail : Nat) (b : block_t) (rb' : ringBuffer_t),
      2 ≤ capacity → capacity * sizeofBlock64 < SIZE_MOD → h < capacity →
      rbPop sizeofBlock64
          ⟨some slots, (capacity * sizeofBlock64) % SIZE_MOD, capacity, count, h, tail⟩ =
        .ok (b, rb') →
      rb'.head ≠ (h + 1) % capacity) := by
  refine ⟨by decide, by decide, by decide, ?_⟩
  intro slots capacity count h tail b rb' hcap hfit hh hp
  rw [rbPop_head hp]
  exact stride_misses_next_slot hcap hfit hh

/-! ## The retry loop of `writeAllFt` -/

theorem dword_request {len off : Nat} (hlen : len < DWORD_MOD) (hoff : off ≤ len) :
    (len + DWORD_MOD - off) % DWORD_MOD = len - off := by
  have h : len + DWORD_MOD - off = (len - off) + DWORD_MOD := by omega
  rw [h, Nat.add_mod_right]
  exact Nat.mod_eq_of_lt (by omega)

theorem sum_take_le (ws : List Nat) : ∀ j : Nat, (ws.take j).sum ≤ ws.sum := by
  induction ws with
  | nil => intro j; simp
  | cons w ws ih =>
    intro j
    cases j with
    | zero => simp
    | succ j =>
      simp only [List.take_succ_cons, List.sum_cons]
      have := ih j
      omega

theorem length_le_sum (ws : List Nat) (h : ∀ w ∈ ws, 1 ≤ w) : ws.length ≤ ws.sum := by
  induction ws with
  | nil => simp
  | cons w ws ih =>
    simp only [List.length_cons, List.sum_cons]
    have h1 := h w (List.mem_cons_self _ _)
    have h2 := ih (fun x hx => h x (List.mem_cons_of_mem _ hx))
    omega

theorem callsOf_append (len : Nat) : ∀ (ws vs : List Nat) (off : Nat),
    callsOf len off (ws ++ vs) = callsOf len off ws ++ callsOf len (off + ws.sum) vs := by
  intro ws
  induction ws with
  | nil => intro vs off; simp [callsOf]
  | cons w ws ih =>
    intro vs off
    show (off, len - off) :: callsOf len (off + w) (ws ++ vs) = _
    rw [ih]
    simp [callsOf, Nat.add_assoc]

theorem callsOf_length (len : Nat) : ∀ (ws : List Nat) (off : Nat),
    (callsOf len off ws).length = ws.length := by
  intro ws
  induction ws with
  | nil => intro off; simp [callsOf]
  | cons w ws ih => intro off; simp [callsOf, ih]

/-- As long as the driver answers `FT_OK` with the counts `ws` and the buffer is
not yet written out, the loop makes exactly these calls and goes on from the
offset they add up to. -/
theorem writeAllFtLoop_calls (ft : Nat → Nat → FtResp) (buf : List Byte) (len : Nat)
    (hlen : len < DWORD_MOD) :
    ∀ (ws : List Nat) (fuel off : Nat) (dev : FtDev),
      off + ws.sum ≤ len →
      (∀ (j : Nat) (hj : j < ws.length),
        off + (ws.take j).sum < len ∧
          ft (dev.log.length + j) (len - (off + (ws.take j).sum)) = ⟨FT_OK, ws.get ⟨j, hj⟩⟩) →
      writeAllFtLoop ft buf len (fuel + ws.length) off dev =
        writeAllFtLoop ft buf len fuel (off + ws.sum)
          ⟨dev.log ++ callsOf len off ws, dev.received ++ (buf.drop off).take ws.sum,
            dev.sleeps + ws.count 0⟩ := by
  intro ws
  induction ws with
  | nil =>
    intro fuel off dev _ _
    simp [callsOf]
  | cons w ws ih =>
    intro fuel off dev hsum hresp
    simp only [List.sum_cons] at hsum
    obtain ⟨hlt, hr0⟩ := hresp 0 (by simp)
    simp only [List.take_zero, List.sum_nil, Nat.add_zero, List.get_eq_getElem,
      List.getElem_cons_zero] at hlt hr0
    have hfuel : fuel + (w :: ws).length = (fuel + ws.length) + 1 := by
      simp only [List.length_cons, Nat.add_assoc]
    rw [hfuel]
    have htt : ((buf.drop off).take (len - off)).take w = (buf.drop off).take w := by
      rw [List.take_take, Nat.min_eq_left (by omega)]
    have hnext : ∀ (j : Nat) (hj : j < ws.length),
        (off + w) + (ws.take j).sum < len ∧
          ft ((dev.log ++ [(off, len - off)]).length + j)
              (len - ((off + w) + (ws.take j).sum)) = ⟨FT_OK, ws.get ⟨j, hj⟩⟩ := by
      intro j hj
      have := hresp (j + 1) (by simp only [List.length_cons]; omega)
      simp only [List.take_succ_cons, List.sum_cons, List.get_eq_getElem,
        List.getElem_cons_succ] at this
      simp only [List.length_append, List.length_singleton, List.get_eq_getElem]
      have e1 : dev.log.length + 1 + j = dev.log.length + (j + 1) := by omega
      have e2 : off + w + (ws.take j).sum = off + (w + (ws.take j).sum) := by omega
      rw [e1, e2]
      exact this
    have hrec : ((buf.drop off).take w ++ ((buf.drop (off + w)).take ws.sum)) =
        (buf.drop off).take (w + ws.sum) := by
      rw [List.take_add, List.drop_drop]
    have hmod : (off + w) % DWORD_MOD = off + w := Nat.mod_eq_of_lt (by omega)
    have step : writeAllFtLoop ft buf len ((fuel + ws.length) + 1) off dev =
        writeAllFtLoop ft buf len (fuel + ws.length) (off + w)
          ⟨dev.log ++ [(off, len - off)], dev.received ++ (buf.drop off).take w,
            dev.sleeps + (if w = 0 then 1 else 0)⟩ := by
      simp only [writeAllFtLoop, if_pos hlt, FT_Write, dword_request hlen (Nat.le_of_lt hlt),
        hr0, htt, ne_eq, not_true_eq_false, if_false, if_true]
      by_cases hw : w = 0
      · subst hw
        simp
      · simp [hw, hmod]
    rw [step, ih fuel (off + w) _ (by omega) hnext]
    have hoff : off + w + ws.sum = off + (w :: ws).sum := by
      simp only [List.sum_cons, Nat.add_assoc]
    rw [hoff]
    congr 1
    rw [FtDev.mk.injEq]
    refine ⟨?_, ?_, ?_⟩
    · simp [callsOf]
    · rw [List.append_assoc, hrec, List.sum_cons]
    · by_cases hw : w = 0
      · subst hw
        show dev.sleeps + (if (0 : Nat) = 0 then 1 else 0) + List.count 0 ws = _
        rw [if_pos rfl, List.count_cons_self]
        omega
      · show dev.sleeps + (if w = 0 then 1 else 0) + List.count 0 ws = _
        rw [if_neg hw, List.count_cons_of_ne (fun h => hw h.symm)]
        omega

theorem callsOf_getElem? (len : Nat) : ∀ (ws : List Nat) (off j : Nat), j < ws.length →
    (callsOf len off ws)[j]? = some (off + (ws.take j).sum, len - (off + (ws.take j).sum)) := by
  intro ws
  induction ws with
  | nil => intro off j hj; simp at hj
  | cons w ws ih =>
    intro off j hj
    cases j with
    | zero => simp [callsOf]
    | succ j =>
      simp only [List.length_cons, Nat.add_lt_add_iff_right] at hj
      simp only [callsOf, List.getElem?_cons_succ, List.take_succ_cons, List.sum_cons]
      rw [ih (off + w) j hj, Nat.add_assoc]

/-- When every call is answered `FT_OK` with a count between 1 and the request,
the loop ends with result 1 once the counts add up to what was left. -/
theorem writeAllFtLoop_complete (ft : Nat → Nat → FtResp) (buf : List Byte) (len : Nat)
    (hlen : len < DWORD_MOD) :
    ∀ (fuel off : Nat) (dev : FtDev), off ≤ len → len - off ≤ fuel →
      (∀ k req : Nat, dev.log.length ≤ k → 1 ≤ req → req ≤ len →
        (ft k req).status = FT_OK ∧ 1 ≤ (ft k req).written ∧ (ft k req).written ≤ req) →
      ∃ ws : List Nat, (∀ w ∈ ws, 1 ≤ w) ∧ off + ws.sum = len ∧
        (∀ (j : Nat) (hj : j < ws.length),
          (ft (dev.log.length + j) (len - (off + (ws.take j).sum))).written = ws.get ⟨j, hj⟩) ∧
        writeAllFtLoop ft buf len fuel off dev =
          .ok (1, ⟨dev.log ++ callsOf len off ws, dev.received ++ (buf.drop off).take ws.sum,
            dev.sleeps⟩) := by
  intro fuel
  induction fuel with
  | zero =>
    intro off dev hoff hfuel _
    have heq : off = len := by omega
    refine ⟨[], by simp, by simpa using heq, by simp, ?_⟩
    simp [writeAllFtLoop, heq, callsOf]
  | succ n ih =>
    intro off dev hoff hfuel hft
    by_cases hlt : off < len
    · obtain ⟨hst, hw1, hw2⟩ := hft dev.log.length (len - off) (Nat.le_refl _) (by omega) (by omega)
      have hft' : ∀ k req : Nat, (dev.log ++ [(off, len - off)]).length ≤ k → 1 ≤ req →
          req ≤ len →
          (ft k req).status = FT_OK ∧ 1 ≤ (ft k req).written ∧ (ft k req).written ≤ req := by
        intro k req hk
        simp only [List.length_append, List.length_singleton] at hk
        exact hft k req (by omega)
      obtain ⟨ws, hpos, hsum, hwr, hrun⟩ :=
        ih (off + (ft dev.log.length (len - off)).written)
          ⟨dev.log ++ [(off, len - off)],
            dev.received ++ (buf.drop off).take (ft dev.log.length (len - off)).written,
            dev.sleeps⟩ (by omega) (by omega) hft'
      refine ⟨(ft dev.log.length (len - off)).written :: ws, ?_, ?_, ?_, ?_⟩
      · intro w hw
        rcases List.mem_cons.mp hw with h | h
        · rw [h]; exact hw1
        · exact hpos w h
      · simp only [List.sum_cons]
        omega
      · intro j hj
        cases j with
        | zero => simp
        | succ j =>
          simp only [List.length_cons, Nat.add_lt_add_iff_right] at hj
          have := hwr j hj
          simp only [List.length_append, List.length_singleton, List.get_eq_getElem] at this
          simp only [List.take_succ_cons, List.sum_cons, List.get_eq_getElem,
            List.getElem_cons_succ]
          have e1 : dev.log.length + (j + 1) = dev.log.length + 1 + j := by omega
          rw [e1, ← Nat.add_assoc]
          exact this
      · have hne : (ft dev.log.length (len - off)).written ≠ 0 := by omega
        have hmod : (off + (ft dev.log.length (len - off)).written) % DWORD_MOD =
            off + (ft dev.log.length (len - off)).written := Nat.mod_eq_of_lt (by omega)
        have htt : ((buf.drop off).take (len - off)).take (ft dev.log.length (len - off)).written =
            (buf.drop off).take (ft dev.log.length (len - off)).written := by
          rw [List.take_take, Nat.min_eq_left hw2]
        simp only [writeAllFtLoop, if_pos hlt, FT_Write, dword_request hlen hoff, hst,
          ne_eq, not_true_eq_false, if_false, if_true, if_neg hne, hmod, htt, hrun]
        congr 2
        rw [FtDev.mk.injEq]
        refine ⟨by simp [callsOf], ?_, rfl⟩
        rw [List.append_assoc, List.sum_cons, List.take_add, List.drop_drop]
    · have heq : off = len := by omega
      refine ⟨[], by simp, by simpa using heq, by simp, ?_⟩
      simp [writeAllFtLoop, heq, callsOf]

/-- C13. Partial-write resilience. For a `len` that fits a `DWORD`, a driver
that answers every request of 1 to `len` bytes with `FT_OK` and a written count
between 1 and the request, and a budget of at least `len` iterations:
`writeAllFt` returns 1; the written counts `ws` of its calls add up to `len`;
call `j` is made at the offset the counts before it add up to, asking for
`len` minus that offset; the device has received `buf[0..len)`; no `Sleep`
is made. -/
theorem writeAllFt_partial_writes (ft : Nat → Nat → FtResp) (buf : List Byte) (len : Nat)
    (dev : FtDev) (fuel : Nat) (hlen : len < DWORD_MOD) (hfuel : len ≤ fuel)
    (hft : ∀ k req : Nat, 1 ≤ req → req ≤ len →
      (ft k req).status = FT_OK ∧ 1 ≤ (ft k req).written ∧ (ft k req).written ≤ req) :
    ∃ ws : List Nat, (∀ w ∈ ws, 1 ≤ w) ∧ ws.sum = len ∧
      (∀ (j : Nat) (hj : j < ws.length),
        (ft (dev.log.length + j) (len - (ws.take j).sum)).written = ws.get ⟨j, hj⟩ ∧
        (callsOf len 0 ws)[j]? = some ((ws.take j).sum, len - (ws.take j).sum)) ∧
      writeAllFt ft fuel dev buf len =
        .ok (1, ⟨dev.log ++ callsOf len 0 ws, dev.received ++ buf.take len, dev.sleeps⟩) := by
  obtain ⟨ws, hpos, hsum, hwr, hrun⟩ :=
    writeAllFtLoop_complete ft buf len hlen fuel 0 dev (Nat.zero_le _) (by omega)
      (fun k req _ h1 h2 => hft k req h1 h2)
  simp only [Nat.zero_add] at hsum hwr
  refine ⟨ws, hpos, hsum, fun j hj => ⟨hwr j hj, ?_⟩, ?_⟩
  · have := callsOf_getElem? len ws 0 j hj
    simpa using this
  · unfold writeAllFt
    rw [hrun, hsum]
    simp

/-- Witness of C13: five bytes through a driver that takes two bytes at a time. -/
theorem writeAllFt_partial_writes_witness :
    (5 < DWORD_MOD ∧ 5 ≤ 5 ∧
      (∀ k req : Nat, 1 ≤ req → req ≤ 5 →
        (ftAtMost 2 k req).status = FT_OK ∧ 1 ≤ (ftAtMost 2 k req).written ∧
          (ftAtMost 2 k req).written ≤ req)) ∧
    (∃ ws : List Nat, (∀ w ∈ ws, 1 ≤ w) ∧ ws.sum = 5 ∧
      (∀ (j : Nat) (hj : j < ws.length),
        (ftAtMost 2 (FtDev.fresh.log.length + j) (5 - (ws.take j).sum)).written = ws.get ⟨j, hj⟩ ∧
        (callsOf 5 0 ws)[j]? = some ((ws.take j).sum, 5 - (ws.take j).sum)) ∧
      writeAllFt (ftAtMost 2) 5 FtDev.fresh [1, 2, 3, 4, 5] 5 =
        .ok (1, ⟨FtDev.fresh.log ++ callsOf 5 0 ws,
          FtDev.fresh.received ++ [1, 2, 3, 4, 5].take 5, FtDev.fresh.sleeps⟩)) ∧
    writeAllFt (ftAtMost 2) 5 FtDev.fresh [1, 2, 3, 4, 5] 5 =
      .ok (1, ⟨[(0, 5), (2, 3), (4, 1)], [1, 2, 3, 4, 5], 0⟩) :=
  ⟨⟨by decide, by decide, fun k req h1 _ => ⟨rfl, by simp only [ftAtMost]; omega,
      by simp only [ftAtMost]; omega⟩⟩,
    writeAllFt_partial_writes (ftAtMost 2) [1, 2, 3, 4, 5] 5 FtDev.fresh 5 (by decide) (by decide)
      (fun k req h1 _ => ⟨rfl, by simp only [ftAtMost]; omega, by simp only [ftAtMost]; omega⟩),
    by decide⟩

/-- C14. Error short-circuit. Let the first `ws.length` calls be answered
`FT_OK` with the written counts `ws`, which leave part of the buffer unwritten,
and let the next call return a status other than `FT_OK`. Then `writeAllFt`
returns 0 with that call as its last one, and the device has received exactly
the `ws.sum` bytes confirmed before it, whatever count the failing call
reported. -/
theorem writeAllFt_error_short_circuit (ft : Nat → Nat → FtResp) (buf : List Byte) (len : Nat)
    (dev : FtDev) (ws : List Nat) (fuel : Nat) (hlen : len < DWORD_MOD) (hsum : ws.sum < len)
    (hfuel : ws.length < fuel)
    (hok : ∀ (j : Nat) (hj : j < ws.length),
      ft (dev.log.length + j) (len - (ws.take j).sum) = ⟨FT_OK, ws.get ⟨j, hj⟩⟩)
    (hbad : (ft (dev.log.length + ws.length) (len - ws.sum)).status ≠ FT_OK) :
    writeAllFt ft fuel dev buf len =
      .ok (0, ⟨dev.log ++ callsOf len 0 ws ++ [(ws.sum, len - ws.sum)],
        dev.received ++ buf.take ws.sum, dev.sleeps + ws.count 0⟩) := by
  obtain ⟨n, hn⟩ : ∃ n, fuel = (n + 1) + ws.length := ⟨fuel - ws.length - 1, by omega⟩
  subst hn
  unfold writeAllFt
  rw [writeAllFtLoop_calls ft buf len hlen ws (n + 1) 0 dev (by omega)]
  · simp only [Nat.zero_add, List.drop_zero]
    simp only [writeAllFtLoop, if_pos hsum, FT_Write, dword_request hlen (Nat.le_of_lt hsum),
      List.length_append, callsOf_length]
    rw [if_pos hbad, if_neg hbad]
    simp
  · intro j hj
    have h1 := sum_take_le ws j
    have h2 := hok j hj
    simp only [Nat.zero_add]
    exact ⟨by omega, h2⟩

/-- Witness of C14: six bytes, two calls accept two bytes each, the third call
returns status 4 and claims seven bytes. -/
theorem writeAllFt_error_short_circuit_witness :
    (6 < DWORD_MOD ∧ [2, 2].sum < 6 ∧ [2, 2].length < 3 ∧
      (∀ (j : Nat) (hj : j < [2, 2].length),
        ftExceptAt 2 4 7 2 (FtDev.fresh.log.length + j) (6 - ([2, 2].take j).sum) =
          ⟨FT_OK, [2, 2].get ⟨j, hj⟩⟩) ∧
      (ftExceptAt 2 4 7 2 (FtDev.fresh.log.length + [2, 2].length) (6 - [2, 2].sum)).status ≠
        FT_OK) ∧
    writeAllFt (ftExceptAt 2 4 7 2) 3 FtDev.fresh [1, 2, 3, 4, 5, 6] 6 =
      .ok (0, ⟨FtDev.fresh.log ++ callsOf 6 0 [2, 2] ++ [([2, 2].sum, 6 - [2, 2].sum)],
        FtDev.fresh.received ++ [1, 2, 3, 4, 5, 6].take [2, 2].sum,
        FtDev.fresh.sleeps + [2, 2].count 0⟩) :=
  ⟨⟨by decide, by decide, by decide, by decide, by decide⟩,
    writeAllFt_error_short_circuit (ftExceptAt 2 4 7 2) [1, 2, 3, 4, 5, 6] 6 FtDev.fresh [2, 2] 3
      (by decide) (by decide) (by decide) (by decide) (by decide)⟩

/-- C15. Zero-write stall. Let the first `ws1.length` calls be answered `FT_OK`
with positive counts `ws1` that leave part of the buffer unwritten, let the next
call be answered `FT_OK` with 0 bytes written, and let every later call be
answered `FT_OK` with a count between 1 and the request. Then `writeAllFt`
returns 1, the call after the stalled one repeats its offset and request size,
the device has received `buf[0..len)`, and exactly one `Sleep` is made. -/
theorem writeAllFt_zero_write_stall (ft : Nat → Nat → FtResp) (buf : List Byte) (len : Nat)
    (dev : FtDev) (ws1 : List Nat) (fuel : Nat) (hlen : len < DWORD_MOD)
    (hsum : ws1.sum < len) (hfuel : len + 1 ≤ fuel)
    (hok : ∀ (j : Nat) (hj : j < ws1.length),
      ft (dev.log.length + j) (len - (ws1.take j).sum) = ⟨FT_OK, ws1.get ⟨j, hj⟩⟩ ∧
        1 ≤ ws1.get ⟨j, hj⟩)
    (hzero : ft (dev.log.length + ws1.length) (len - ws1.sum) = ⟨FT_OK, 0⟩)
    (hlater : ∀ k req : Nat, dev.log.length + ws1.length < k → 1 ≤ req → req ≤ len →
      (ft k req).status = FT_OK ∧ 1 ≤ (ft k req).written ∧ (ft k req).written ≤ req) :
    ∃ ws2 : List Nat, (∀ w ∈ ws2, 1 ≤ w) ∧ ws1.sum + ws2.sum = len ∧
      writeAllFt ft fuel dev buf len =
        .ok (1, ⟨dev.log ++ callsOf len 0 (ws1 ++ 0 :: ws2), dev.received ++ buf.take len,
          dev.sleeps + 1⟩) ∧
      (callsOf len 0 (ws1 ++ 0 :: ws2))[ws1.length]? = some (ws1.sum, len - ws1.sum) ∧
      (callsOf len 0 (ws1 ++ 0 :: ws2))[ws1.length + 1]? = some (ws1.sum, len - ws1.sum) := by
  have hpos1 : ∀ w ∈ ws1, 1 ≤ w := by
    intro w hw
    obtain ⟨i, hi, rfl⟩ := List.getElem_of_mem hw
    exact (hok i hi).2
  have hlen1 := length_le_sum ws1 hpos1
  have hcount : (ws1 ++ [0]).count 0 = 1 := by
    rw [List.count_append]
    have : ws1.count 0 = 0 := by
      rw [List.count_eq_zero]
      intro h0
      have := hpos1 0 h0
      omega
    simp [this]
  obtain ⟨n, hn⟩ : ∃ n, fuel = n + (ws1 ++ [0]).length :=
    ⟨fuel - (ws1.length + 1), by simp only [List.length_append, List.length_singleton]; omega⟩
  have hsum0 : (ws1 ++ [0]).sum = ws1.sum := by simp
  have hpre := writeAllFtLoop_calls ft buf len hlen (ws1 ++ [0]) n 0 dev (by omega) (by
    intro j hj
    simp only [List.length_append, List.length_singleton] at hj
    simp only [Nat.zero_add, List.get_eq_getElem]
    by_cases hj1 : j < ws1.length
    · have h1 := sum_take_le ws1 j
      have h2 := (hok j hj1).1
      simp only [List.get_eq_getElem] at h2
      rw [List.take_append_of_le_length (Nat.le_of_lt hj1), List.getElem_append_left hj1]
      exact ⟨by omega, h2⟩
    · have hje : j = ws1.length := by omega
      subst hje
      rw [List.take_append_of_le_length (Nat.le_refl _), List.take_length,
        List.getElem_append_right (Nat.le_refl _)]
      simp only [Nat.sub_self, List.getElem_cons_zero]
      exact ⟨hsum, hzero⟩)
  rw [hsum0, hcount] at hpre
  simp only [Nat.zero_add, List.drop_zero] at hpre
  obtain ⟨ws2, hpos2, hsum2, -, hrun⟩ :=
    writeAllFtLoop_complete ft buf len hlen n ws1.sum
      ⟨dev.log ++ callsOf len 0 (ws1 ++ [0]), dev.received ++ buf.take ws1.sum, dev.sleeps + 1⟩
      (Nat.le_of_lt hsum)
      (by
        have hn' : fuel = n + (ws1.length + 1) := by
          simpa only [List.length_append, List.length_singleton] using hn
        omega)
      (by
        intro k req hk
        simp only [List.length_append, callsOf_length, List.length_singleton] at hk
        exact hlater k req (by omega))
  refine ⟨ws2, hpos2, hsum2, ?_, ?_, ?_⟩
  · unfold writeAllFt
    rw [hn, hpre, hrun]
    congr 2
    rw [FtDev.mk.injEq]
    refine ⟨?_, ?_, rfl⟩
    · have : ws1 ++ 0 :: ws2 = (ws1 ++ [0]) ++ ws2 := by simp
      rw [this, callsOf_append len (ws1 ++ [0]) ws2 0, hsum0, Nat.zero_add, List.append_assoc]
    · rw [List.append_assoc, ← hsum2, List.take_add]
  · have := callsOf_getElem? len (ws1 ++ 0 :: ws2) 0 ws1.length (by simp)
    rw [this]
    simp [List.take_append_of_le_length]
  · have := callsOf_getElem? len (ws1 ++ 0 :: ws2) 0 (ws1.length + 1) (by
        simp only [List.length_append, List.length_cons]
        have : 0 < ws2.length := by
          rcases ws2 with _ | ⟨w, ws2⟩
          · simp at hsum2; omega
          · simp
        omega)
    rw [this]
    have ht : (ws1 ++ 0 :: ws2).take (ws1.length + 1) = ws1 ++ [0] := by
      rw [show ws1 ++ 0 :: ws2 = (ws1 ++ [0]) ++ ws2 by simp,
        List.take_append_of_le_length (by simp), List.take_of_length_le (by simp)]
    rw [ht, hsum0]
    simp

/-- Witness of C15: six bytes through a driver that takes two bytes at a time
and stalls once, on its second call. -/
theorem writeAllFt_zero_write_stall_witness :
    (6 < DWORD_MOD ∧ [2].sum < 6 ∧ 6 + 1 ≤ 7 ∧
      (∀ (j : Nat) (hj : j < [2].length),
        ftExceptAt 1 FT_OK 0 2 (FtDev.fresh.log.length + j) (6 - ([2].take j).sum) =
          ⟨FT_OK, [2].get ⟨j, hj⟩⟩ ∧ 1 ≤ [2].get ⟨j, hj⟩) ∧
      ftExceptAt 1 FT_OK 0 2 (FtDev.fresh.log.length + [2].length) (6 - [2].sum) = ⟨FT_OK, 0⟩ ∧
      (∀ k req : Nat, FtDev.fresh.log.length + [2].length < k → 1 ≤ req → req ≤ 6 →
        (ftExceptAt 1 FT_OK 0 2 k req).status = FT_OK ∧
          1 ≤ (ftExceptAt 1 FT_OK 0 2 k req).written ∧
          (ftExceptAt 1 FT_OK 0 2 k req).written ≤ req)) ∧
    (∃ ws2 : List Nat, (∀ w ∈ ws2, 1 ≤ w) ∧ [2].sum + ws2.sum = 6 ∧
      writeAllFt (ftExceptAt 1 FT_OK 0 2) 7 FtDev.fresh [1, 2, 3, 4, 5, 6] 6 =
        .ok (1, ⟨FtDev.fresh.log ++ callsOf 6 0 ([2] ++ 0 :: ws2),
          FtDev.fresh.received ++ [1, 2, 3, 4, 5, 6].take 6, FtDev.fresh.sleeps + 1⟩) ∧
      (callsOf 6 0 ([2] ++ 0 :: ws2))[[2].length]? = some ([2].sum, 6 - [2].sum) ∧
      (callsOf 6 0 ([2] ++ 0 :: ws2))[[2].length + 1]? = some ([2].sum, 6 - [2].sum)) ∧
    writeAllFt (ftExceptAt 1 FT_OK 0 2) 7 FtDev.fresh [1, 2, 3, 4, 5, 6] 6 =
      .ok (1, ⟨[(0, 6), (2, 4), (2, 4), (4, 2)], [1, 2, 3, 4, 5, 6], 1⟩) :=
  ⟨⟨by decide, by decide, by decide, by decide, by decide, fun k req hk h1 _ => by
      have hk' : k ≠ 1 := by
        simp only [FtDev.fresh, List.length_nil, List.length_singleton] at hk
        omega
      simp only [ftExceptAt, if_neg hk']
      exact ⟨trivial, by omega, by omega⟩⟩,
    writeAllFt_zero_write_stall (ftExceptAt 1 FT_OK 0 2) [1, 2, 3, 4, 5, 6] 6 FtDev.fresh [2] 7
      (by decide) (by decide) (by decide) (by decide) (by decide) (fun k req hk h1 _ => by
        have hk' : k ≠ 1 := by
          simp only [FtDev.fresh, List.length_nil, List.length_singleton] at hk
          omega
        simp only [ftExceptAt, if_neg hk']
        exact ⟨trivial, by omega, by omega⟩),
    by decide⟩

/-! ## Positions of `head` and `tail` -/

theorem rbInitLoop_length (alloc : Nat → Bool) (blockSize : Nat) :
    ∀ (todo i : Nat) (slots : List block_t) (heap : Heap) (slots' : List block_t)
      (heap' : Heap),
      rbInitLoop alloc blockSize todo i slots heap = .ok (slots', heap') →
      slots'.length = slots.length ∧ (1 ≤ todo → i + todo ≤ slots.length) := by
  intro todo
  induction todo with
  | zero =>
    intro i slots heap slots' heap' h
    simp only [rbInitLoop, Except.ok.injEq, Prod.mk.injEq] at h
    obtain ⟨h1, -⟩ := h
    subst h1
    exact ⟨rfl, fun h0 => absurd h0 (by omega)⟩
  | succ n ih =>
    intro i slots heap slots' heap' h
    simp only [rbInitLoop] at h
    by_cases hi : i < slots.length
    · rw [if_pos hi] at h
      obtain ⟨h1, h2⟩ := ih _ _ _ _ _ h
      rw [List.length_set] at h1 h2
      refine ⟨h1, fun _ => ?_⟩
      by_cases hn : 1 ≤ n
      · have := h2 hn
        omega
      · omega
    · rw [if_neg hi] at h
      simp at h

theorem rbInit_ok_buffer {sz : Nat} {alloc : Nat → Bool} {rb0 : ringBuffer_t} {heap0 : Heap}
    {capacity blockSize : Nat} {rb : ringBuffer_t} {heap : Heap} (hcap : 1 ≤ capacity)
    (h : rbInit sz alloc rb0 heap0 capacity blockSize = .ok (0, rb, heap)) :
    (∃ slots : List block_t, rb.buffer = some slots ∧ slots.length = rb0.capacity) ∧
      capacity ≤ rb0.capacity ∧ rb0.capacity * sz < SIZE_MOD := by
  unfold rbInit at h
  split at h
  · simp at h
  · rename_i slots hcal
    split at h
    · simp at h
    · rename_i slots' heap' hloop
      simp only [Except.ok.injEq, Prod.mk.injEq, true_and] at h
      obtain ⟨hrb, -⟩ := h
      obtain ⟨h1, h2⟩ := rbInitLoop_length _ _ _ _ _ _ _ _ hloop
      unfold calloc at hcal
      split at hcal
      · rename_i hc
        simp only [Option.some.injEq] at hcal
        subst hcal
        rw [List.length_replicate] at h1 h2
        have := h2 hcap
        refine ⟨⟨slots', ?_, h1⟩, by omega, hc.2⟩
        rw [← hrb]
      · simp at hcal

theorem advance_mod {cap sz k : Nat} (hcap : 1 ≤ cap) (hsz : 1 ≤ sz) :
    (if (k % cap) * sz + sz = cap * sz then 0 else (k % cap) * sz + sz) =
      ((k + 1) % cap) * sz := by
  have hm : k % cap < cap := Nat.mod_lt _ (by omega)
  have hk : (k + 1) % cap = (k % cap + 1) % cap := by
    rw [Nat.add_mod]
    by_cases h1 : cap = 1
    · subst h1
      simp [Nat.mod_one]
    · rw [Nat.mod_eq_of_lt (show 1 < cap by omega)]
  by_cases h : k % cap + 1 = cap
  · have h2 : (k % cap) * sz + sz = cap * sz := by
      rw [← Nat.succ_mul, Nat.succ_eq_add_one, h]
    rw [if_pos h2, hk, h, Nat.mod_self, Nat.zero_mul]
  · have h2 : ¬ ((k % cap) * sz + sz = cap * sz) := by
      intro he
      rw [← Nat.succ_mul] at he
      exact h (Nat.eq_of_mul_eq_mul_right (by omega) he)
    have h3 : (k % cap + 1) % cap = k % cap + 1 := Nat.mod_eq_of_lt (by omega)
    rw [if_neg h2, hk, h3, Nat.add_mul, Nat.one_mul]

theorem fillSlot_frame {rb rb' : ringBuffer_t} {heap heap' : Heap} {p : Nat} {bytes : List Byte}
    (h : fillSlot rb heap p bytes = .ok (rb', heap')) :
    (∃ (slots : List block_t) (b : block_t), rb.buffer = some slots ∧
        rb'.buffer = some (slots.set p b)) ∧
      rb'.bufferEnd = rb.bufferEnd ∧ rb'.head = rb.head ∧ rb'.tail = rb.tail := by
  unfold fillSlot at h
  split at h
  · simp at h
  · rename_i slots hbuf
    split at h
    · simp at h
    · rename_i b hb
      split at h
      · simp at h
      · simp only [Except.ok.injEq, Prod.mk.injEq] at h
        obtain ⟨hrb, -⟩ := h
        rw [← hrb]
        exact ⟨⟨slots, _, hbuf, rfl⟩, rfl, rfl, rfl⟩

theorem rbCommitWriteSlot_frame {sz : Nat} {rb rb' : ringBuffer_t} {eof : Int}
    (h : rbCommitWriteSlot sz rb eof = .ok rb') :
    (∃ (slots : List block_t) (b : block_t), rb.buffer = some slots ∧
        rb'.buffer = some (slots.set rb.tail b)) ∧
      rb'.bufferEnd = rb.bufferEnd ∧ rb'.head = rb.head := by
  unfold rbCommitWriteSlot at h
  split at h
  · simp at h
  · rename_i slots hbuf
    split at h
    · simp at h
    · simp only [Except.ok.injEq] at h
      rw [← h]
      exact ⟨⟨slots, _, hbuf, rfl⟩, rfl, rfl⟩

theorem step_PosInv {sz cap0 capacity : Nat} (hsz : 1 ≤ sz) (hcap : 1 ≤ capacity)
    {s s' : Sys} {op : Op} (hinv : PosInv sz cap0 capacity s) (h : step sz s op = .ok s') :
    PosInv sz cap0 capacity s' := by
  obtain ⟨⟨slots, hbuf, hlen⟩, hend, htail, hhead⟩ := hinv
  cases op with
  | acquire =>
    simp only [step] at h
    split at h
    · simp at h
    · simp only [Except.ok.injEq] at h
      rw [← h]
      exact ⟨⟨slots, hbuf, hlen⟩, hend, htail, hhead⟩
  | fill bytes =>
    simp only [step] at h
    split at h
    · simp at h
    · split at h
      · simp at h
      · rename_i rb' heap' hf
        obtain ⟨⟨sl, b, hb1, hb2⟩, h2, h3, h4⟩ := fillSlot_frame hf
        simp only [Except.ok.injEq] at h
        rw [← h]
        rw [hbuf] at hb1
        simp only [Option.some.injEq] at hb1
        subst hb1
        refine ⟨⟨_, hb2, ?_⟩, h2.trans hend, h4.trans htail, h3.trans hhead⟩
        rw [List.length_set]
        exact hlen
  | commit eof =>
    simp only [step] at h
    split at h
    · simp at h
    · split at h
      · simp at h
      · rename_i rb' hcm
        obtain ⟨⟨sl, b, hb1, hb2⟩, h2, h3⟩ := rbCommitWriteSlot_frame hcm
        have ht := rbCommitWriteSlot_tail hcm
        obtain ⟨-, -, hsome⟩ := rbCommitWriteSlot_ok hcm
        obtain ⟨b0, hb0⟩ := Option.isSome_iff_exists.mp hsome
        simp only [Except.ok.injEq] at h
        rw [← h]
        rw [hbuf] at hb1
        simp only [Option.some.injEq] at hb1
        subst hb1
        refine ⟨⟨_, hb2, ?_⟩, h2.trans hend, ?_, h3.trans hhead⟩
        · rw [List.length_set]
          exact hlen
        · show rb'.tail =
            ((s.committed ++ ((slotAt rb' s.rb.tail).map (view s.heap)).toList).length %
              capacity) * sz
          rw [hb0, ht, htail, hend]
          simp only [Option.map_some', Option.toList_some, List.length_append,
            List.length_singleton]
          exact advance_mod hcap hsz
  | pop =>
    simp only [step] at h
    split at h
    · simp at h
    · rename_i b rb' hp
      obtain ⟨-, h1, h2, h3⟩ := rbPop_frame hp
      have hh := rbPop_head hp
      simp only [Except.ok.injEq] at h
      rw [← h]
      refine ⟨⟨slots, h1.trans hbuf, hlen⟩, h2.trans hend, h3.trans htail, ?_⟩
      show rb'.head = ((s.popped ++ [view s.heap b]).length % capacity) * sz
      rw [hh, hhead, hend]
      simp only [List.length_append, List.length_singleton]
      exact advance_mod hcap hsz

theorem runOps_PosInv {sz cap0 capacity : Nat} (hsz : 1 ≤ sz) (hcap : 1 ≤ capacity)
    (ops : List Op) :
    ∀ {s s' : Sys}, PosInv sz cap0 capacity s → runOps sz s ops = .ok s' →
      PosInv sz cap0 capacity s' := by
  induction ops with
  | nil =>
    intro s s' hinv h
    simp only [runOps, Except.ok.injEq] at h
    exact h ▸ hinv
  | cons op ops ih =>
    intro s s' hinv h
    simp only [runOps] at h
    split at h
    · simp at h
    · rename_i s1 hs1
      exact ih (step_PosInv hsz hcap hinv hs1) h

theorem start_PosInv {sz : Nat} {alloc : Nat → Bool} {rb0 : ringBuffer_t} {heap0 : Heap}
    {capacity blockSize : Nat} {rb : ringBuffer_t} {heap : Heap} (hcap : 1 ≤ capacity)
    (h : rbInit sz alloc rb0 heap0 capacity blockSize = .ok (0, rb, heap)) :
    PosInv sz rb0.capacity capacity (Sys.start rb heap) ∧ capacity ≤ rb0.capacity ∧
      capacity * sz < SIZE_MOD := by
  obtain ⟨hb, hle, hfit⟩ := rbInit_ok_buffer hcap h
  obtain ⟨-, -, hh, ht, he⟩ := rbInit_ok_zero h
  have hfit' : capacity * sz < SIZE_MOD :=
    Nat.lt_of_le_of_lt (Nat.mul_le_mul_right sz hle) hfit
  refine ⟨⟨hb, ?_, ?_, ?_⟩, hle, hfit'⟩
  · show rb.bufferEnd = capacity * sz
    rw [he, Nat.mod_eq_of_lt hfit']
  · show rb.tail = (0 % capacity) * sz
    rw [ht, Nat.zero_mod, Nat.zero_mul]
  · show rb.head = (0 % capacity) * sz
    rw [hh, Nat.zero_mod, Nat.zero_mul]

theorem start_CountInv {sz : Nat} {alloc : Nat → Bool} {rb0 : ringBuffer_t} {heap0 : Heap}
    {capacity blockSize : Nat} {rb : ringBuffer_t} {heap : Heap}
    (h : rbInit sz alloc rb0 heap0 capacity blockSize = .ok (0, rb, heap)) :
    CountInv capacity (Sys.start rb heap) := by
  obtain ⟨h1, h2, -⟩ := rbInit_ok_zero h
  refine ⟨h1, ?_, ?_, ?_⟩
  · show rb.count ≤ capacity
    omega
  · intro hr
    simp [Sys.start] at hr
  · show rb.count + 0 = 0
    omega

/-- C18. Ring positions. In every state reached from a successful `rbInit` with
`capacity ≥ 1` and a stride `sz ≥ 1`, with positions counted in `block_t`
elements from `rb->buffer`: `bufferEnd` is at `capacity * sz`; `head` and `tail`
are the multiples `(pops mod capacity) * sz` and `(commits mod capacity) * sz`,
below `capacity * sz`; `tail = (head + count * sz) mod (capacity * sz)`; `tail`
is back at 0 after `capacity` commits, and the `capacity` positions it takes on
the way are pairwise distinct. -/
theorem ring_position_invariant (sz : Nat) (alloc : Nat → Bool) (rb0 : ringBuffer_t)
    (heap0 : Heap) (capacity blockSize : Nat) (rb : ringBuffer_t) (heap : Heap)
    (ops : List Op) (s : Sys) (hsz : 1 ≤ sz) (hcap : 1 ≤ capacity)
    (hinit : rbInit sz alloc rb0 heap0 capacity blockSize = .ok (0, rb, heap))
    (hrun : runOps sz (Sys.start rb heap) ops = .ok s) :
    s.rb.bufferEnd = capacity * sz ∧
      s.rb.head = (s.popped.length % capacity) * sz ∧
      s.rb.tail = (s.committed.length % capacity) * sz ∧
      s.rb.head < capacity * sz ∧ s.rb.tail < capacity * sz ∧
      s.rb.tail = (s.rb.head + s.rb.count * sz) % (capacity * sz) ∧
      (s.committed.length = capacity → s.rb.tail = 0) ∧
      (∀ i j : Nat, i < capacity → j < capacity → i ≠ j →
        (i % capacity) * sz ≠ (j % capacity) * sz) := by
  obtain ⟨h0, -, hfit⟩ := start_PosInv hcap hinit
  have hcapfit : capacity < SIZE_MOD :=
    Nat.lt_of_le_of_lt (Nat.le_mul_of_pos_right capacity hsz) hfit
  obtain ⟨-, hend, htail, hhead⟩ := runOps_PosInv hsz hcap ops h0 hrun
  obtain ⟨-, -, -, hcount⟩ := runOps_CountInv hcapfit ops (start_CountInv hinit) hrun
  have hlt : ∀ k : Nat, (k % capacity) * sz < capacity * sz := fun k =>
    Nat.mul_lt_mul_of_pos_right (Nat.mod_lt _ (by omega)) (by omega)
  refine ⟨hend, hhead, htail, hhead ▸ hlt _, htail ▸ hlt _, ?_, ?_, ?_⟩
  · rw [hhead, htail, ← Nat.add_mul, Nat.mul_mod_mul_right, Nat.mod_add_mod, ← hcount,
      Nat.add_comm s.popped.length]
  · intro hc
    rw [htail, hc, Nat.mod_self, Nat.zero_mul]
  · intro i j hi hj hij he
    rw [Nat.mod_eq_of_lt hi, Nat.mod_eq_of_lt hj] at he
    exact hij (Nat.eq_of_mul_eq_mul_right (by omega) he)

/-- Witness of C18: a ring of capacity 2 on a 64-bit target whose array happens
to have 25 elements; after two commits `tail` is back at 0, and after one pop
`head` is at element 24. -/
theorem ring_position_invariant_witness :
    (1 ≤ sizeofBlock64 ∧ 1 ≤ 2 ∧
      rbInit sizeofBlock64 (fun _ => true) ⟨none, 0, 25, 0, 0, 0⟩ [] 2 1 =
        .ok (0, ⟨some (⟨1, 0, 0⟩ :: ⟨2, 0, 0⟩ :: List.replicate 23 zeroBlock), 48, 2, 0, 0, 0⟩,
          [[0], [0]]) ∧
      runOps sizeofBlock64
          (Sys.start ⟨some (⟨1, 0, 0⟩ :: ⟨2, 0, 0⟩ :: List.replicate 23 zeroBlock), 48, 2, 0, 0, 0⟩
            [[0], [0]])
          [.acquire, .commit 0, .acquire, .commit 0, .pop] =
        .ok ⟨⟨some (⟨1, 0, 0⟩ :: ⟨2, 0, 0⟩ :: List.replicate 23 zeroBlock), 48, 2, 1, 24, 0⟩,
          [[0], [0]], none, some (0, ⟨1, 0, 0⟩), [⟨0, [], 0⟩, ⟨0, [], 0⟩], [⟨0, [], 0⟩]⟩) ∧
    ((48 : Nat) = 2 * sizeofBlock64 ∧
      (24 : Nat) = ([(⟨0, [], 0⟩ : Blk)].length % 2) * sizeofBlock64 ∧
      (0 : Nat) = ([(⟨0, [], 0⟩ : Blk), ⟨0, [], 0⟩].length % 2) * sizeofBlock64 ∧
      24 < 2 * sizeofBlock64 ∧ 0 < 2 * sizeofBlock64 ∧
      (0 : Nat) = (24 + 1 * sizeofBlock64) % (2 * sizeofBlock64) ∧
      ([(⟨0, [], 0⟩ : Blk), ⟨0, [], 0⟩].length = 2 → (0 : Nat) = 0) ∧
      (∀ i j : Nat, i < 2 → j < 2 → i ≠ j →
        (i % 2) * sizeofBlock64 ≠ (j % 2) * sizeofBlock64)) :=
  ⟨⟨by decide, by decide, by decide, by decide⟩,
    ring_position_invariant sizeofBlock64 (fun _ => true) ⟨none, 0, 25, 0, 0, 0⟩ [] 2 1
      ⟨some (⟨1, 0, 0⟩ :: ⟨2, 0, 0⟩ :: List.replicate 23 zeroBlock), 48, 2, 0, 0, 0⟩ [[0], [0]]
      [.acquire, .commit 0, .acquire, .commit 0, .pop]
      ⟨⟨some (⟨1, 0, 0⟩ :: ⟨2, 0, 0⟩ :: List.replicate 23 zeroBlock), 48, 2, 1, 24, 0⟩,
        [[0], [0]], none, some (0, ⟨1, 0, 0⟩), [⟨0, [], 0⟩, ⟨0, [], 0⟩], [⟨0, [], 0⟩]⟩
      (by decide) (by decide) (by decide) (by decide)⟩

/-! ## First in, first out -/

/-- C11. Acquire is read-only. In any state with `count < capacity`,
`rbAcquireWriteSlot` returns the pointer `rb->tail`; as a step of the queue it
only records that pointer as the producer's reservation, leaving the ring (head,
tail, count, capacity, every slot) and the payload storage as they are; a second
acquire right after it returns the same pointer. -/
theorem acquire_read_only (sz : Nat) (s : Sys) (h : s.rb.count < s.rb.capacity) :
    rbAcquireWriteSlot s.rb = .ok s.rb.tail ∧
      step sz s .acquire = .ok { s with reserved := some s.rb.tail } ∧
      (∀ s1 : Sys, step sz s .acquire = .ok s1 →
        s1.rb = s.rb ∧ s1.heap = s.heap ∧ s1.reserved = some s.rb.tail ∧
          step sz s1 .acquire = .ok s1) ∧
      runOps sz s [.acquire, .acquire] = .ok { s with reserved := some s.rb.tail } := by
  have hne : ¬ (s.rb.count = s.rb.capacity) := by omega
  have h1 : rbAcquireWriteSlot s.rb = .ok s.rb.tail := by
    simp only [rbAcquireWriteSlot, if_neg hne]
  have h2 : step sz s .acquire = .ok { s with reserved := some s.rb.tail } := by
    simp only [step, h1]
  have h3 : step sz { s with reserved := some s.rb.tail } .acquire =
      .ok { s with reserved := some s.rb.tail } := by
    simp only [step, h1]
  refine ⟨h1, h2, ?_, ?_⟩
  · intro s1 hs1
    rw [h2] at hs1
    simp only [Except.ok.injEq] at hs1
    subst hs1
    exact ⟨rfl, rfl, rfl, h3⟩
  · simp only [runOps, h2, h3]

/-- Witness of C11: the empty ring of capacity 3. -/
theorem acquire_read_only_witness :
    (Sys.start ring3 [[0], [0], [0]]).rb.count < (Sys.start ring3 [[0], [0], [0]]).rb.capacity ∧
    (rbAcquireWriteSlot (Sys.start ring3 [[0], [0], [0]]).rb =
        .ok (Sys.start ring3 [[0], [0], [0]]).rb.tail ∧
      step sizeofBlock64 (Sys.start ring3 [[0], [0], [0]]) .acquire =
        .ok { Sys.start ring3 [[0], [0], [0]] with
              reserved := some (Sys.start ring3 [[0], [0], [0]]).rb.tail } ∧
      (∀ s1 : Sys, step sizeofBlock64 (Sys.start ring3 [[0], [0], [0]]) .acquire = .ok s1 →
        s1.rb = (Sys.start ring3 [[0], [0], [0]]).rb ∧
          s1.heap = (Sys.start ring3 [[0], [0], [0]]).heap ∧
          s1.reserved = some (Sys.start ring3 [[0], [0], [0]]).rb.tail ∧
          step sizeofBlock64 s1 .acquire = .ok s1) ∧
      runOps sizeofBlock64 (Sys.start ring3 [[0], [0], [0]]) [.acquire, .acquire] =
        .ok { Sys.start ring3 [[0], [0], [0]] with
              reserved := some (Sys.start ring3 [[0], [0], [0]]).rb.tail }) :=
  ⟨by decide, acquire_read_only sizeofBlock64 (Sys.start ring3 [[0], [0], [0]]) (by decide)⟩

theorem rbPop_succeeds (sz : Nat) {rb : ringBuffer_t} {slots : List block_t} {b : block_t}
    (hne : rb.count ≠ 0) (hbuf : rb.buffer = some slots) (hb : slots[rb.head]? = some b) :
    ∃ rb' : ringBuffer_t, rbPop sz rb = .ok (b, rb') := by
  simp only [rbPop, if_neg hne, slotAt, hbuf, hb]
  exact ⟨_, rfl⟩

theorem runOps_no_pop {sz : Nat} (ops : List Op) :
    ∀ {s s' : Sys}, (∀ op ∈ ops, op ≠ Op.pop) → runOps sz s ops = .ok s' →
      s'.popped = s.popped := by
  induction ops with
  | nil =>
    intro s s' _ h
    simp only [runOps, Except.ok.injEq] at h
    rw [h]
  | cons op ops ih =>
    intro s s' hno h
    simp only [runOps] at h
    split at h
    · simp at h
    · rename_i s1 hs1
      have h1 := ih (fun o ho => hno o (List.mem_cons_of_mem _ ho)) h
      rw [h1]
      have hop := hno op (List.mem_cons_self _ _)
      cases op with
      | pop => exact absurd rfl hop
      | acquire =>
        simp only [step] at hs1
        split at hs1
        · simp at hs1
        · simp only [Except.ok.injEq] at hs1
          rw [← hs1]
      | fill bytes =>
        simp only [step] at hs1
        split at hs1
        · simp at hs1
        · split at hs1
          · simp at hs1
          · simp only [Except.ok.injEq] at hs1
            rw [← hs1]
      | commit eof =>
        simp only [step] at hs1
        split at hs1
        · simp at hs1
        · split at hs1
          · simp at hs1
          · simp only [Except.ok.injEq] at hs1
            rw [← hs1]

/-- C12. Backpressure. In every state reached from a successful `rbInit`, an
acquire step completes only if `count < capacity` and a pop step only if
`count > 0`. With capacity 1, in every state reached without any pop in which a
block has been committed, `rbAcquireWriteSlot` is blocked, `rbPop` completes,
and in the state after that pop `rbAcquireWriteSlot` completes. -/
theorem backpressure (sz : Nat) (alloc : Nat → Bool) (rb0 : ringBuffer_t) (heap0 : Heap)
    (capacity blockSize : Nat) (rb : ringBuffer_t) (heap : Heap) (ops : List Op) (s : Sys)
    (hsz : 1 ≤ sz) (hcap : 1 ≤ capacity)
    (hinit : rbInit sz alloc rb0 heap0 capacity blockSize = .ok (0, rb, heap))
    (hrun : runOps sz (Sys.start rb heap) ops = .ok s) :
    (∀ s' : Sys, step sz s .acquire = .ok s' → s.rb.count < s.rb.capacity) ∧
      (∀ s' : Sys, step sz s .pop = .ok s' → 0 < s.rb.count) ∧
      (capacity = 1 → (∀ op ∈ ops, op ≠ Op.pop) → s.committed ≠ [] →
        step sz s .acquire = .error .blocked ∧
          ∃ s1 : Sys, step sz s .pop = .ok s1 ∧ ∃ s2 : Sys, step sz s1 .acquire = .ok s2) := by
  obtain ⟨h0, hle, hfit⟩ := start_PosInv hcap hinit
  have hcapfit : capacity < SIZE_MOD :=
    Nat.lt_of_le_of_lt (Nat.le_mul_of_pos_right capacity hsz) hfit
  obtain ⟨⟨slots, hbuf, hlen⟩, -, -, hhead⟩ := runOps_PosInv hsz hcap ops h0 hrun
  obtain ⟨hc, hcle, -, hcount⟩ := runOps_CountInv hcapfit ops (start_CountInv hinit) hrun
  refine ⟨?_, ?_, ?_⟩
  · intro s' hs'
    simp only [step, rbAcquireWriteSlot] at hs'
    by_cases he : s.rb.count = s.rb.capacity
    · rw [if_pos he] at hs'
      simp at hs'
    · omega
  · intro s' hs'
    simp only [step] at hs'
    split at hs'
    · simp at hs'
    · rename_i b rb' hp
      have := (rbPop_ok hp).1
      omega
  · intro hone hno hcom
    subst hone
    have hpop : s.popped = [] := runOps_no_pop ops hno hrun
    have hlen1 : 1 ≤ s.committed.length := by
      cases hs : s.committed with
      | nil => exact absurd hs hcom
      | cons a l => simp
    rw [hpop] at hcount hhead
    simp only [List.length_nil, Nat.add_zero, Nat.zero_mod, Nat.zero_mul] at hcount hhead
    have hcnt : s.rb.count = 1 := by omega
    have hb : slots[s.rb.head]? = some (slots.get ⟨0, by omega⟩) := by
      rw [hhead, List.getElem?_eq_getElem]
      rfl
    obtain ⟨rb', hp⟩ := rbPop_succeeds sz (by omega) hbuf hb
    obtain ⟨-, hcap', hcount'⟩ := rbPop_ok hp
    refine ⟨?_, ?_⟩
    · simp only [step, rbAcquireWriteSlot, hcnt, hc, if_true]
    · have hz : rb'.count = 0 := by
        rw [hcount', hcnt]
        show (1 + SIZE_MOD - 1) % SIZE_MOD = 0
        rw [Nat.add_sub_cancel_left, Nat.mod_self]
      have hne : ¬ (rb'.count = rb'.capacity) := by
        rw [hz, hcap', hc]
        omega
      refine ⟨{ s with rb := rb', held := some (s.rb.head, slots.get ⟨0, by omega⟩),
                       popped := s.popped ++ [view s.heap (slots.get ⟨0, by omega⟩)] }, ?_,
        { s with rb := rb', held := some (s.rb.head, slots.get ⟨0, by omega⟩),
                 popped := s.popped ++ [view s.heap (slots.get ⟨0, by omega⟩)],
                 reserved := some rb'.tail }, ?_⟩
      · simp only [step, hp]
      · simp only [step, rbAcquireWriteSlot, if_neg hne]

/-- Witness of C12: a ring of capacity 1 on a 64-bit target after one block has
been acquired, filled and committed. -/
theorem backpressure_witness :
    (1 ≤ sizeofBlock64 ∧ 1 ≤ 1 ∧
      rbInit sizeofBlock64 (fun _ => true) ⟨none, 0, 1, 0, 0, 0⟩ [] 1 1 =
        .ok (0, ⟨some [⟨1, 0, 0⟩], 24, 1, 0, 0, 0⟩, [[0]]) ∧
      runOps sizeofBlock64 (Sys.start ⟨some [⟨1, 0, 0⟩], 24, 1, 0, 0, 0⟩ [[0]])
          [.acquire, .fill [7], .commit 0] =
        .ok ⟨⟨some [⟨1, 1, 0⟩], 24, 1, 1, 0, 0⟩, [[7]], none, none, [⟨1, [7], 0⟩], []⟩) ∧
    ((∀ s' : Sys,
        step sizeofBlock64 ⟨⟨some [⟨1, 1, 0⟩], 24, 1, 1, 0, 0⟩, [[7]], none, none, [⟨1, [7], 0⟩], []⟩
          .acquire = .ok s' → (1 : Nat) < 1) ∧
      (∀ s' : Sys,
        step sizeofBlock64 ⟨⟨some [⟨1, 1, 0⟩], 24, 1, 1, 0, 0⟩, [[7]], none, none, [⟨1, [7], 0⟩], []⟩
          .pop = .ok s' → 0 < (1 : Nat)) ∧
      ((1 : Nat) = 1 → (∀ op ∈ [Op.acquire, Op.fill [7], Op.commit 0], op ≠ Op.pop) →
        [(⟨1, [7], 0⟩ : Blk)] ≠ [] →
        step sizeofBlock64 ⟨⟨some [⟨1, 1, 0⟩], 24, 1, 1, 0, 0⟩, [[7]], none, none, [⟨1, [7], 0⟩], []⟩
            .acquire = .error .blocked ∧
          ∃ s1 : Sys,
            step sizeofBlock64
                ⟨⟨some [⟨1, 1, 0⟩], 24, 1, 1, 0, 0⟩, [[7]], none, none, [⟨1, [7], 0⟩], []⟩ .pop =
              .ok s1 ∧
            ∃ s2 : Sys, step sizeofBlock64 s1 .acquire = .ok s2)) :=
  ⟨⟨by decide, by decide, by decide, by decide⟩,
    backpressure sizeofBlock64 (fun _ => true) ⟨none, 0, 1, 0, 0, 0⟩ [] 1 1
      ⟨some [⟨1, 0, 0⟩], 24, 1, 0, 0, 0⟩ [[0]] [.acquire, .fill [7], .commit 0]
      ⟨⟨some [⟨1, 1, 0⟩], 24, 1, 1, 0, 0⟩, [[7]], none, none, [⟨1, [7], 0⟩], []⟩
      (by decide) (by decide) (by decide) (by decide)⟩

/-! ## The blocks `producerCall` commits -/

theorem chunkLens_snoc {bs c m : Nat} (hc : c % bs = 0) (h1 : 1 ≤ m) (h2 : m ≤ bs) :
    chunkLens bs (c + m) = chunkLens bs c ++ [m] := by
  have hbs : 0 < bs := by omega
  obtain ⟨q, rfl⟩ := Nat.dvd_of_mod_eq_zero hc
  unfold chunkLens
  rw [Nat.mul_add_div hbs, Nat.mul_add_mod, Nat.mul_div_cancel_left _ hbs, Nat.mul_mod_right]
  by_cases hm : m = bs
  · subst hm
    rw [Nat.div_self hbs, Nat.mod_self]
    simp [List.replicate_succ']
  · have hlt : m < bs := by omega
    rw [Nat.div_eq_of_lt hlt, Nat.mod_eq_of_lt hlt]
    have hne : m ≠ 0 := by omega
    simp [hne]

theorem chunkLens_zero (bs : Nat) : chunkLens bs 0 = [] := by
  simp [chunkLens]

theorem chunkLens_length {bs : Nat} (hbs : 1 ≤ bs) (n : Nat) :
    (chunkLens bs n).length = (n + bs - 1) / bs := by
  have hpos : 0 < bs := by omega
  have hd := Nat.div_add_mod n bs
  have hr := Nat.mod_lt n hpos
  unfold chunkLens
  by_cases h0 : n % bs = 0
  · rw [if_pos h0]
    simp only [List.append_nil, List.length_replicate]
    rw [h0, Nat.add_zero] at hd
    have e : n + bs - 1 = bs * (n / bs) + (bs - 1) := by omega
    rw [e, Nat.mul_add_div hpos, Nat.div_eq_of_lt (show bs - 1 < bs by omega), Nat.add_zero]
  · rw [if_neg h0]
    simp only [List.length_append, List.length_replicate, List.length_singleton]
    have e : n + bs - 1 = bs * (n / bs + 1) + (n % bs - 1) := by
      rw [Nat.mul_add, Nat.mul_one]
      omega
    rw [e, Nat.mul_add_div hpos, Nat.div_eq_of_lt (show n % bs - 1 < bs by omega)]

theorem chunkLens_sum (bs n : Nat) : (chunkLens bs n).sum = n := by
  have hd := Nat.div_add_mod n bs
  unfold chunkLens
  rw [List.sum_append, List.sum_replicate, smul_eq_mul]
  by_cases h0 : n % bs = 0
  · rw [if_pos h0]
    rw [h0, Nat.add_zero] at hd
    simp only [List.sum_nil, Nat.add_zero]
    rw [Nat.mul_comm]
    exact hd
  · rw [if_neg h0]
    simp only [List.sum_cons, List.sum_nil, Nat.add_zero]
    rw [Nat.mul_comm]
    exact hd

theorem chunkLens_mem {bs : Nat} (hbs : 1 ≤ bs) (n l : Nat) (h : l ∈ chunkLens bs n) :
    1 ≤ l ∧ l ≤ bs := by
  unfold chunkLens at h
  rcases List.mem_append.mp h with h1 | h1
  · have := (List.mem_replicate.mp h1).2
    omega
  · by_cases h0 : n % bs = 0
    · rw [if_pos h0] at h1
      simp at h1
    · rw [if_neg h0] at h1
      have hl : l = n % bs := by simpa using h1
      have := Nat.mod_lt n (show 0 < bs by omega)
      omega

theorem Heap.load_store {h h' : Heap} {a : Nat} {bytes : List Byte}
    (hs : h.store a bytes = some h') : ∃ tl : List Byte, h'.load a = some (bytes ++ tl) := by
  unfold Heap.store at hs
  split at hs
  · simp at hs
  · rename_i k
    split at hs
    · simp at hs
    · rename_i old hold
      split at hs
      · simp only [Option.some.injEq] at hs
        rw [← hs]
        have hk : k < h.length := by
          rcases List.getElem?_eq_some_iff.mp hold with ⟨hlt, -⟩
          exact hlt
        exact ⟨old.drop bytes.length, by simp [Heap.load, List.getElem?_set, hk]⟩
      · simp at hs

theorem fillSlot_slot {rb rb' : ringBuffer_t} {heap heap' : Heap} {p : Nat} {bytes : List Byte}
    (h : fillSlot rb heap p bytes = .ok (rb', heap')) :
    (∃ b : block_t, slotAt rb' p = some b ∧ b.len = bytes.length ∧
        (view heap' b).payload = bytes) ∧ rb'.tail = rb.tail := by
  unfold fillSlot at h
  split at h
  · simp at h
  · rename_i slots hbuf
    split at h
    · simp at h
    · rename_i b hb
      split at h
      · simp at h
      · rename_i heap1 hst
        simp only [Except.ok.injEq, Prod.mk.injEq] at h
        obtain ⟨hrb, hhp⟩ := h
        rw [← hrb]
        refine ⟨⟨{ b with len := bytes.length }, ?_, rfl, ?_⟩, rfl⟩
        · have hp : p < slots.length := by
            rcases List.getElem?_eq_some_iff.mp hb with ⟨hlt, -⟩
            exact hlt
          simp [slotAt, List.getElem?_set, hp]
        · rw [← hhp]
          show ((heap1.load b.data).getD []).take bytes.length = bytes
          by_cases h0 : bytes.length = 0
          · rw [h0, List.take_zero]
            exact (List.length_eq_zero.mp h0).symm
          · rw [if_neg h0] at hst
            obtain ⟨tl, htl⟩ := Heap.load_store hst
            rw [htl]
            simp

theorem rbCommitWriteSlot_slot {sz : Nat} {rb rb' : ringBuffer_t} {eof : Int}
    (h : rbCommitWriteSlot sz rb eof = .ok rb') :
    ∃ b : block_t, slotAt rb rb.tail = some b ∧
      slotAt rb' rb.tail = some { b with eof := eof } := by
  unfold rbCommitWriteSlot at h
  split at h
  · simp at h
  · rename_i slots hbuf
    split at h
    · simp at h
    · rename_i b hb
      simp only [Except.ok.injEq] at h
      rw [← h]
      refine ⟨b, ?_, ?_⟩
      · simp only [slotAt, hbuf]
        exact hb
      · have hp : rb.tail < slots.length := by
          rcases List.getElem?_eq_some_iff.mp hb with ⟨hlt, -⟩
          exact hlt
        simp [slotAt, List.getElem?_set, hp]

theorem consumerCall_ProdInv {cfg : PumpCfg} {bs : Nat} {file : List Byte} {s s' : Pump}
    (h : ProdInv bs file s) (hs : consumerCall cfg s = .ok s') :
    ProdInv bs file s' ∧ acquired s' = acquired s := by
  obtain ⟨hfile, hpc, hcm, htl, hbuf, hheap⟩ := consumerCall_frame hs
  obtain ⟨hsome, hplen, rest, hf, hle, hrest, hat, hpay⟩ := h
  have hslot : slotAt s'.rb s'.rb.tail = slotAt s.rb s.rb.tail := by
    simp only [slotAt, hbuf, htl]
  refine ⟨⟨by rw [hbuf]; exact hsome, by rw [hcm]; exact hplen, rest, hfile.trans hf, hle,
    hrest, ?_, ?_⟩, ?_⟩
  · rw [hslot, hpc, htl]
    simp only [commitSig, hcm]
    exact hat
  · rw [hslot, hpc, hheap, hcm]
    exact hpay
  · simp only [acquired, hpc, hcm]

theorem producerCall_ProdInv {cfg : PumpCfg} {file : List Byte} (hbs : 1 ≤ cfg.blockSize)
    {s s' : Pump} (h : ProdInv cfg.blockSize file s) (hs : producerCall cfg s = .ok s') :
    ProdInv cfg.blockSize file s' ∧
      acquired s' = acquired s + (if s.ppc = .acquire ∧ s'.ppc ≠ .acquire then 1 else 0) := by
  obtain ⟨hsome, hplen, rest, hfile, hle, hrest, hat, hpay⟩ := h
  have hsome' := (producerCall_buffer hs).trans hsome
  unfold producerCall at hs
  split at hs
  · -- start
    rename_i hpc
    rw [hpc] at hat hpay
    simp only [ProdAt] at hat
    simp only [PayAt] at hpay
    obtain ⟨hleft, hsig⟩ := hat
    rw [hfile] at hs
    simp only [Except.ok.injEq] at hs
    rw [← hs] at hsome' ⊢
    refine ⟨⟨hsome', hplen, rest, rfl, hle, hrest, ?_, ?_⟩, ?_⟩
    · show ProdAt cfg.blockSize file.length .acquire _ _ (commitSig s) rest.length
      simp only [ProdAt]
      rw [hsig, hleft, Nat.sub_self]
      exact ⟨by simp [dataSig, chunkLens_zero], fun _ => Nat.zero_mod _⟩
    · show PayAt file .acquire _ s.committed rest.length
      simp only [PayAt]
      exact hpay
    · simp [acquired, hpc]
  · -- acquire
    rename_i hpc
    rw [hpc] at hat hpay
    simp only [ProdAt] at hat
    simp only [PayAt] at hpay
    split at hs
    · simp only [Except.ok.injEq] at hs
      rw [← hs]
      refine ⟨⟨hsome, hplen, rest, hfile, hle, hrest, ?_, ?_⟩, ?_⟩
      · rw [hpc]
        exact hat
      · rw [hpc]
        simp only [PayAt]
        exact hpay
      · simp [hpc]
    · simp at hs
    · rename_i block hb
      simp only [rbAcquireWriteSlot] at hb
      split at hb
      · simp at hb
      · simp only [Except.ok.injEq] at hb
        have hnn : ¬ (s.rb.buffer.isNone = true ∧ block = 0) := by
          intro hh
          have h1 := hh.1
          rw [Option.isNone_iff_eq_none] at h1
          rw [h1] at hsome
          simp at hsome
        rw [if_neg hnn] at hs
        simp only [Except.ok.injEq] at hs
        rw [← hs]
        refine ⟨⟨hsome, hplen, rest, hfile, hle, hrest, ?_, ?_⟩, ?_⟩
        · show ProdAt cfg.blockSize file.length (.fill block) s.rb.tail _ (commitSig s)
            rest.length
          simp only [ProdAt]
          exact ⟨hb.symm, hat⟩
        · show PayAt file (.fill block) _ s.committed rest.length
          simp only [PayAt]
          exact hpay
        · simp [acquired, hpc]
  · -- fill
    rename_i block hpc
    rw [hpc] at hat hpay
    simp only [ProdAt] at hat
    simp only [PayAt] at hpay
    obtain ⟨hblock, hsig, hmod⟩ := hat
    have hrest' : s.file.getD [] = rest := by rw [hfile]; rfl
    simp only [hrest'] at hs
    split at hs
    · simp at hs
    · rename_i rb' heap' hf
      simp only [Except.ok.injEq] at hs
      rw [← hs] at hsome' ⊢
      obtain ⟨⟨b, hb, hblen, hbpay⟩, htl⟩ := fillSlot_slot hf
      have hm : (List.take (min cfg.blockSize rest.length) rest).length =
          min cfg.blockSize rest.length := by
        rw [List.length_take]
        omega
      rw [hm] at hblen
      have hmle : min cfg.blockSize rest.length ≤ rest.length := Nat.min_le_right _ _
      have e : file.length - (rest.length - min cfg.blockSize rest.length) -
          min cfg.blockSize rest.length = file.length - rest.length := by omega
      refine ⟨⟨hsome', hplen, rest.drop (min cfg.blockSize rest.length), rfl, ?_, ?_, ?_, ?_⟩,
        ?_⟩
      · rw [List.length_drop]
        omega
      · rw [List.length_drop]
        have hdd := congrArg (List.drop (min cfg.blockSize rest.length)) hrest
        rw [hdd, List.drop_drop]
        congr 1
        omega
      · show ProdAt cfg.blockSize file.length (.commit _) rb'.tail (slotAt rb' rb'.tail)
          (commitSig s) _
        rw [htl, ← hblock, List.length_drop]
        simp only [ProdAt]
        refine ⟨b, hb, by rw [hblen], by omega, ?_, ?_⟩
        · rw [hsig, hblen]
          congr 1
          omega
        · rw [hblen]
          by_cases h0 : min cfg.blockSize rest.length = 0
          · left
            omega
          · right
            refine ⟨by omega, by omega, ?_, by omega⟩
            rw [e]
            exact hmod (by omega)
      · show PayAt file (.commit _) ((slotAt rb' rb'.tail).map (view heap')) s.committed _
        rw [htl, ← hblock, hb, List.length_drop]
        simp only [PayAt, Option.map_some', Option.some.injEq, exists_eq_left']
        have hvl : (view heap' b).len = min cfg.blockSize rest.length := hblen
        rw [hvl, e]
        refine ⟨hpay, ?_⟩
        rw [hbpay]
        exact congrArg (List.take (min cfg.blockSize rest.length)) hrest
      · simp [acquired, hpc]
  · -- commit
    rename_i eof hpc
    rw [hpc] at hat hpay
    simp only [ProdAt] at hat
    simp only [PayAt] at hpay
    obtain ⟨b, hslot, he, hbn, hsig, hcase⟩ := hat
    obtain ⟨v, hv, hflat, hvpay⟩ := hpay
    rw [hslot] at hv
    simp only [Option.map_some', Option.some.injEq] at hv
    have hvlen : v.len = b.len := by rw [← hv]; rfl
    rw [hvlen] at hflat hvpay
    split at hs
    · simp at hs
    · rename_i rb' hcm
      simp only [Except.ok.injEq] at hs
      rw [← hs] at hsome' ⊢
      obtain ⟨b0, hb0, hb1⟩ := rbCommitWriteSlot_slot hcm
      have hbb : b0 = b := Option.some.inj (hb0.symm.trans hslot)
      rw [hbb] at hb1
      have hcm' : s.committed ++ ((slotAt rb' s.rb.tail).map (view s.heap)).toList =
          s.committed ++ [⟨b.len, v.payload, eof⟩] := by
        rw [hb1, ← hv]
        rfl
      have hsig' : commitSig { s with
            rb := rb'
            committed := s.committed ++ ((slotAt rb' s.rb.tail).map (view s.heap)).toList
            ppc := if eof = 1 then ProdPc.done else ProdPc.acquire } =
          commitSig s ++ [(b.len, eof)] := by
        simp [commitSig, hb1, view]
      have htake : file.take (file.length - rest.length - b.len) ++ v.payload =
          file.take (file.length - rest.length) := by
        rw [hvpay]
        have e : file.length - rest.length = file.length - rest.length - b.len + b.len := by
          omega
        conv_rhs => rw [e, List.take_add]
      have hvl : v.payload.length = b.len := by
        rw [hvpay, List.length_take, List.length_drop]
        omega
      refine ⟨⟨hsome', ?_, rest, hfile, hle, hrest, ?_, ?_⟩, ?_⟩
      · show ∀ x ∈ s.committed ++ ((slotAt rb' s.rb.tail).map (view s.heap)).toList,
          x.payload.length = x.len
        rw [hcm']
        intro x hx
        rcases List.mem_append.mp hx with hx | hx
        · exact hplen x hx
        · have hxe : x = ⟨b.len, v.payload, eof⟩ := by simpa using hx
          rw [hxe]
          exact hvl
      · show ProdAt cfg.blockSize file.length (if eof = 1 then ProdPc.done else ProdPc.acquire)
          _ _ (commitSig _) rest.length
        rw [hsig', hsig]
        rcases hcase with ⟨hl0, hr0⟩ | ⟨h1, h2, h3, h4⟩
        · rw [if_pos hl0] at he
          rw [if_pos he, hl0, hr0, he]
          simp only [ProdAt, Nat.sub_zero]
        · have hne : b.len ≠ 0 := by omega
          rw [if_neg hne] at he
          have hne1 : ¬ (eof = 1) := by rw [he]; decide
          rw [if_neg hne1, he]
          simp only [ProdAt]
          have hsn := chunkLens_snoc h3 h1 h2
          have e : file.length - rest.length - b.len + b.len = file.length - rest.length := by
            omega
          rw [e] at hsn
          refine ⟨?_, ?_⟩
          · simp only [dataSig, hsn, List.map_append, List.map_cons, List.map_nil]
          · intro hpos
            have hbl := h4 hpos
            have e2 : file.length - rest.length =
                file.length - rest.length - b.len + cfg.blockSize := by omega
            rw [e2, Nat.add_mod_right]
            exact h3
      · show PayAt file (if eof = 1 then ProdPc.done else ProdPc.acquire) _
          (s.committed ++ ((slotAt rb' s.rb.tail).map (view s.heap)).toList) rest.length
        rw [hcm']
        have hfl : ((s.committed ++ [(⟨b.len, v.payload, eof⟩ : Blk)]).map
            (fun x => x.payload)).flatten = file.take (file.length - rest.length) := by
          rw [List.map_append, List.flatten_append, hflat]
          simpa using htake
        rcases hcase with ⟨hl0, hr0⟩ | ⟨h1, h2, h3, h4⟩
        · rw [if_pos hl0] at he
          rw [if_pos he]
          simp only [PayAt]
          rw [hfl, hr0, Nat.sub_zero, List.take_length]
        · have hne : b.len ≠ 0 := by omega
          rw [if_neg hne] at he
          have hne1 : ¬ (eof = 1) := by rw [he]; decide
          rw [if_neg hne1]
          simp only [PayAt]
          exact hfl
      · have hlen : ({ s with
            rb := rb'
            committed := s.committed ++ ((slotAt rb' s.rb.tail).map (view s.heap)).toList
            ppc := if eof = 1 then ProdPc.done else ProdPc.acquire } : Pump).committed.length =
            s.committed.length + 1 := by
          simp [hb1]
        simp only [acquired, hpc]
        rw [hlen]
        by_cases h1 : eof = 1
        · simp [h1]
        · simp [h1]
  · -- done
    rename_i hpc
    simp only [Except.ok.injEq] at hs
    rw [← hs]
    exact ⟨⟨hsome, hplen, rest, hfile, hle, hrest, hat, hpay⟩, by simp [hpc]⟩

theorem runPump_ProdInv {cfg : PumpCfg} {file : List Byte} (hbs : 1 ≤ cfg.blockSize)
    (sched : List Bool) :
    ∀ {s s' : Pump}, ProdInv cfg.blockSize file s → runPump cfg s sched = .ok s' →
      ProdInv cfg.blockSize file s' ∧ acquireCount cfg s sched + acquired s = acquired s' := by
  induction sched with
  | nil =>
    intro s s' hinv h
    simp only [runPump, Except.ok.injEq] at h
    rw [← h]
    exact ⟨hinv, by simp [acquireCount]⟩
  | cons who rest ih =>
    intro s s' hinv h
    simp only [runPump] at h
    split at h
    · simp at h
    · rename_i s1 hs1
      cases who with
      | true =>
        simp only [if_true] at hs1
        obtain ⟨hi1, ha1⟩ := producerCall_ProdInv hbs hinv hs1
        obtain ⟨hi2, ha2⟩ := ih hi1 h
        refine ⟨hi2, ?_⟩
        simp only [acquireCount, if_true, hs1, true_and]
        omega
      | false =>
        simp only [Bool.false_eq_true, if_false] at hs1
        obtain ⟨hi1, ha1⟩ := consumerCall_ProdInv hinv hs1
        obtain ⟨hi2, ha2⟩ := ih hi1 h
        refine ⟨hi2, ?_⟩
        simp only [acquireCount, Bool.false_eq_true, if_false, hs1, false_and]
        omega

theorem start_ProdInv {bs : Nat} {rb : ringBuffer_t} {heap : Heap} {file : List Byte}
    (hbuf : rb.buffer ≠ none) : ProdInv bs file (Pump.start rb heap (some file)) := by
  refine ⟨?_, ?_, file, rfl, Nat.le_refl _, ?_, ?_, ?_⟩
  · show rb.buffer.isSome = true
    cases hb : rb.buffer with
    | none => exact absurd hb hbuf
    | some x => rfl
  · intro b hb
    simp [Pump.start] at hb
  · rw [Nat.sub_self, List.drop_zero]
  · simp [Pump.start, ProdAt, commitSig]
  · simp [Pump.start, PayAt]

theorem producer_done_signature {cfg : PumpCfg} (hbs : 1 ≤ cfg.blockSize)
    {rb : ringBuffer_t} {heap : Heap} {file : List Byte} {sched : List Bool} {s : Pump}
    (hbuf : rb.buffer ≠ none)
    (hrun : runPump cfg (Pump.start rb heap (some file)) sched = .ok s)
    (hdone : s.ppc = .done) :
    commitSig s = dataSig cfg.blockSize file.length ++ [(0, 1)] ∧
      acquireCount cfg (Pump.start rb heap (some file)) sched = s.committed.length ∧
      (s.committed.map (fun b => b.payload)).flatten = file ∧
      (∀ b ∈ s.committed, b.payload.length = b.len) := by
  obtain ⟨⟨-, hplen, rest, -, -, -, hat, hpay⟩, hacq⟩ :=
    runPump_ProdInv hbs sched (start_ProdInv hbuf) hrun
  rw [hdone] at hat hpay
  simp only [ProdAt] at hat
  simp only [PayAt] at hpay
  refine ⟨hat, ?_, hpay, hplen⟩
  simp only [acquired, hdone, Pump.start] at hacq
  simpa using hacq

theorem done_blocks {bs n : Nat} {s : Pump}
    (h : commitSig s = dataSig bs n ++ [(0, 1)]) :
    ∃ (data : List Blk) (last : Blk), s.committed = data ++ [last] ∧
      data.map (fun b => b.len) = chunkLens bs n ∧ (∀ b ∈ data, b.eof = 0) ∧
      last.len = 0 ∧ last.eof = 1 := by
  unfold commitSig at h
  obtain ⟨data, l2, hc, hd, hl⟩ := List.map_eq_append_iff.mp h
  have hl2 : ∃ last : Blk, l2 = [last] ∧ last.len = 0 ∧ last.eof = 1 := by
    cases l2 with
    | nil => simp at hl
    | cons last tl =>
      cases tl with
      | nil =>
        simp only [List.map_cons, List.map_nil, List.cons.injEq, Prod.mk.injEq,
          and_true] at hl
        exact ⟨last, rfl, hl.1, hl.2⟩
      | cons x xs => simp at hl
  obtain ⟨last, hlast, hl0, hl1⟩ := hl2
  rw [hlast] at hc
  refine ⟨data, last, hc, ?_, ?_, hl0, hl1⟩
  · have := congrArg (List.map Prod.fst) hd
    simpa [dataSig, List.map_map, Function.comp_def] using this
  · intro b hb
    have hm : (b.len, b.eof) ∈ dataSig bs n := by
      rw [← hd]
      exact List.mem_map.mpr ⟨b, hb, rfl⟩
    obtain ⟨l, -, hl2⟩ := List.mem_map.mp hm
    simp only [Prod.mk.injEq] at hl2
    exact hl2.2.symm

theorem ProdInv_eof {bs : Nat} {file : List Byte} {s : Pump} (h : ProdInv bs file s) :
    ∀ b ∈ s.committed, b.eof ≠ 0 → b.eof = 1 ∧ b.len = 0 ∧ b.payload = [] := by
  obtain ⟨-, hplen, rest, -, -, -, hat, -⟩ := h
  have key : ∀ c : Nat, commitSig s = dataSig bs c →
      ∀ b ∈ s.committed, b.eof ≠ 0 → b.eof = 1 ∧ b.len = 0 ∧ b.payload = [] := by
    intro c hc b hb hne
    have hm : (b.len, b.eof) ∈ dataSig bs c := by
      rw [← hc]
      exact List.mem_map.mpr ⟨b, hb, rfl⟩
    obtain ⟨l, -, hl2⟩ := List.mem_map.mp hm
    simp only [Prod.mk.injEq] at hl2
    exact absurd hl2.2.symm hne
  cases hpc : s.ppc with
  | start =>
    rw [hpc] at hat
    simp only [ProdAt] at hat
    have hnil : s.committed = [] := by simpa [commitSig] using hat.2
    intro b hb
    rw [hnil] at hb
    simp at hb
  | acquire =>
    rw [hpc] at hat
    exact key _ hat.1
  | fill p =>
    rw [hpc] at hat
    exact key _ hat.2.1
  | commit e =>
    rw [hpc] at hat
    obtain ⟨b, -, -, -, hsig, -⟩ := hat
    exact key _ hsig
  | done =>
    rw [hpc] at hat
    simp only [ProdAt] at hat
    obtain ⟨data, last, hc, -, hd, hl0, hl1⟩ := done_blocks hat
    intro b hb hne
    have hpl := hplen b hb
    rw [hc] at hb
    rcases List.mem_append.mp hb with hb | hb
    · exact absurd (hd b hb) hne
    · have hbl : b = last := by simpa using hb
      rw [hbl] at hpl ⊢
      rw [hl0] at hpl
      exact ⟨hl1, hl0, List.length_eq_zero.mp hpl⟩

theorem flatten_payload_length (data : List Blk)
    (h : ∀ b ∈ data, b.payload.length = b.len) :
    ((data.map (fun b => b.payload)).flatten).length = (data.map (fun b => b.len)).sum := by
  induction data with
  | nil => rfl
  | cons x xs ih =>
    simp only [List.map_cons, List.flatten_cons, List.length_append, List.sum_cons]
    rw [ih (fun b hb => h b (List.mem_cons_of_mem _ hb)), h x (List.mem_cons_self _ _)]

theorem last_block_payload {data : List Blk} {file : List Byte} {k bs r : Nat}
    (hlen : data.map (fun b => b.len) = List.replicate k bs ++ [r])
    (hpl : ∀ b ∈ data, b.payload.length = b.len)
    (hflat : (data.map (fun b => b.payload)).flatten = file) :
    ∃ b : Blk, data.getLast? = some b ∧ b ∈ data ∧ b.len = r ∧
      b.payload = file.drop (k * bs) := by
  rcases List.eq_nil_or_concat data with hnil | ⟨init, b, hd⟩
  · rw [hnil] at hlen
    simp at hlen
  · rw [List.concat_eq_append] at hd
    rw [hd] at hlen hflat
    rw [List.map_append] at hlen
    obtain ⟨h1, h2⟩ := List.append_inj' hlen rfl
    simp only [List.map_cons, List.map_nil, List.cons.injEq, and_true] at h2
    refine ⟨b, ?_, ?_, h2, ?_⟩
    · rw [hd]
      simp
    · rw [hd]
      simp
    · have hil : ((init.map (fun b => b.payload)).flatten).length = k * bs := by
        rw [flatten_payload_length init (fun x hx => hpl x (by rw [hd]; simp [hx])), h1,
          List.sum_replicate, smul_eq_mul]
      rw [← hflat, List.map_append, List.flatten_append]
      simp only [List.map_cons, List.map_nil, List.flatten_cons, List.flatten_nil,
        List.append_nil]
      rw [List.drop_left' hil]

/-! ## The terminal block and the number of blocks -/

/-- C17, counterexample. A file of 3 = 1 * 2 + 1 bytes read two bytes at a time
through a ring of capacity 1: the producer returns after committing blocks of 2
and 1 bytes without the flag and then one block with `eof = 1`, whose `len` is 0,
not the remainder 1. -/
theorem terminal_block_len_differs_from_remainder :
    ([10, 20, 30] : List Byte).length = 1 * 2 + 1 ∧
    (initAndPump sizeofBlock64 1 1 2 [10, 20, 30]
      [true, true, true, true, false, false, true, true, true, false, false,
        true, true, true, false, false]).toOption.map
        (fun s => (s.ppc, s.committed)) =
      some (.done, [⟨2, [10, 20], 0⟩, ⟨1, [30], 0⟩, ⟨0, [], 1⟩]) := by
  refine ⟨by decide, by decide⟩

/-- C17, as amended. For a file of `k * blockSize + r` bytes with `r < blockSize`,
streamed through a ring whose `buffer` is not `NULL`: in every state the two
workers reach, a block committed with the end-of-file flag has `eof = 1`,
`len = 0` and no payload; once `producerCall` has returned, that block is the last
one committed, the ones before it are not flagged, their lengths are `k` times
`blockSize` followed by `r` when `r > 0`, each carries as many bytes as its `len`,
their payloads put end to end are the content of the file, and when `r > 0` the
block committed just before the flagged one carries the `r` trailing bytes of the
file. -/
theorem terminal_block_is_empty (cfg : PumpCfg) (rb : ringBuffer_t) (heap : Heap)
    (file : List Byte) (sched : List Bool) (s : Pump) (k r : Nat)
    (hbuf : rb.buffer ≠ none)
    (hsize : file.length = k * cfg.blockSize + r) (hr : r < cfg.blockSize)
    (hrun : runPump cfg (Pump.start rb heap (some file)) sched = .ok s) :
    (∀ b ∈ s.committed, b.eof ≠ 0 → b.eof = 1 ∧ b.len = 0 ∧ b.payload = []) ∧
      (s.ppc = .done →
        ∃ (data : List Blk) (last : Blk), s.committed = data ++ [last] ∧
          last.eof = 1 ∧ last.len = 0 ∧ last.payload = [] ∧ (∀ b ∈ data, b.eof = 0) ∧
          data.map (fun b => b.len) =
            List.replicate k cfg.blockSize ++ (if r = 0 then [] else [r]) ∧
          (∀ b ∈ data, b.payload.length = b.len) ∧
          (data.map (fun b => b.payload)).flatten = file ∧
          (0 < r → ∃ b : Blk, data.getLast? = some b ∧ b.eof = 0 ∧ b.len = r ∧
            b.payload = file.drop (k * cfg.blockSize))) := by
  have hbs : 1 ≤ cfg.blockSize := by omega
  obtain ⟨hinv, -⟩ := runPump_ProdInv hbs sched (start_ProdInv hbuf) hrun
  refine ⟨ProdInv_eof hinv, fun hdone => ?_⟩
  obtain ⟨hsig, -, hflat, hplen⟩ := producer_done_signature hbs hbuf hrun hdone
  obtain ⟨data, last, hc, hlen, hd, hl0, hl1⟩ := done_blocks hsig
  have hlp : last.payload = [] := by
    have := hplen last (by rw [hc]; simp)
    rw [hl0] at this
    exact List.length_eq_zero.mp this
  have hq : file.length / cfg.blockSize = k := by
    rw [hsize, Nat.mul_comm, Nat.mul_add_div (by omega), Nat.div_eq_of_lt hr, Nat.add_zero]
  have hm : file.length % cfg.blockSize = r := by
    rw [hsize, Nat.mul_comm, Nat.mul_add_mod, Nat.mod_eq_of_lt hr]
  have hlen' : data.map (fun b => b.len) =
      List.replicate k cfg.blockSize ++ (if r = 0 then [] else [r]) := by
    rw [hlen]
    unfold chunkLens
    rw [hq, hm]
  have hpd : ∀ b ∈ data, b.payload.length = b.len :=
    fun b hb => hplen b (by rw [hc]; simp [hb])
  have hfd : (data.map (fun b => b.payload)).flatten = file := by
    rw [hc, List.map_append, List.flatten_append] at hflat
    simpa [hlp] using hflat
  refine ⟨data, last, hc, hl1, hl0, hlp, hd, hlen', hpd, hfd, fun hpos => ?_⟩
  have hr0 : r ≠ 0 := by omega
  rw [if_neg hr0] at hlen'
  obtain ⟨b, hb1, hbm, hb2, hb3⟩ := last_block_payload hlen' hpd hfd
  exact ⟨b, hb1, hd b hbm, hb2, hb3⟩

/-- Witness of C17 as amended: the run of the counterexample, on the ring `rbInit`
builds for capacity 1 and block size 2. -/
theorem terminal_block_is_empty_witness :
    (((⟨some [⟨1, 0, 0⟩], 24, 1, 0, 0, 0⟩ : ringBuffer_t).buffer ≠ none ∧
      ([10, 20, 30] : List Byte).length = 1 * 2 + 1 ∧ 1 < 2 ∧
      rbInit sizeofBlock64 (fun _ => true) ⟨none, 0, 1, 0, 0, 0⟩ [] 1 2 =
        .ok (0, ⟨some [⟨1, 0, 0⟩], 24, 1, 0, 0, 0⟩, [[0, 0]]) ∧
      runPump ⟨sizeofBlock64, 2, ftAcceptAll, 3⟩
          (Pump.start ⟨some [⟨1, 0, 0⟩], 24, 1, 0, 0, 0⟩ [[0, 0]] (some [10, 20, 30]))
          [true, true, true, true, false, false, true, true, true, false, false,
            true, true, true, false, false] =
        .ok ⟨⟨some [⟨1, 0, 1⟩], 24, 1, 0, 0, 0⟩, [[30, 20]], some [], .done, .done,
          ⟨[(0, 2), (0, 1)], [10, 20, 30], 0⟩,
          [⟨2, [10, 20], 0⟩, ⟨1, [30], 0⟩, ⟨0, [], 1⟩],
          [⟨2, [10, 20], 0⟩, ⟨1, [30], 0⟩, ⟨0, [], 1⟩]⟩) ∧
    ((∀ b ∈ [(⟨2, [10, 20], 0⟩ : Blk), ⟨1, [30], 0⟩, ⟨0, [], 1⟩],
        b.eof ≠ 0 → b.eof = 1 ∧ b.len = 0 ∧ b.payload = []) ∧
      (ProdPc.done = ProdPc.done →
        ∃ (data : List Blk) (last : Blk),
          [(⟨2, [10, 20], 0⟩ : Blk), ⟨1, [30], 0⟩, ⟨0, [], 1⟩] = data ++ [last] ∧
          last.eof = 1 ∧ last.len = 0 ∧ last.payload = [] ∧ (∀ b ∈ data, b.eof = 0) ∧
          data.map (fun b => b.len) =
            List.replicate 1 2 ++ (if (1 : Nat) = 0 then [] else [1]) ∧
          (∀ b ∈ data, b.payload.length = b.len) ∧
          (data.map (fun b => b.payload)).flatten = [10, 20, 30] ∧
          ((0 : Nat) < 1 → ∃ b : Blk, data.getLast? = some b ∧ b.eof = 0 ∧ b.len = 1 ∧
            b.payload = ([10, 20, 30] : List Byte).drop (1 * 2))))) :=
  ⟨⟨by decide, by decide, by decide, by decide, by decide⟩,
    terminal_block_is_empty ⟨sizeofBlock64, 2, ftAcceptAll, 3⟩
      ⟨some [⟨1, 0, 0⟩], 24, 1, 0, 0, 0⟩ [[0, 0]] [10, 20, 30]
      [true, true, true, true, false, false, true, true, true, false, false,
        true, true, true, false, false]
      ⟨⟨some [⟨1, 0, 1⟩], 24, 1, 0, 0, 0⟩, [[30, 20]], some [], .done, .done,
        ⟨[(0, 2), (0, 1)], [10, 20, 30], 0⟩,
        [⟨2, [10, 20], 0⟩, ⟨1, [30], 0⟩, ⟨0, [], 1⟩],
        [⟨2, [10, 20], 0⟩, ⟨1, [30], 0⟩, ⟨0, [], 1⟩]⟩
      1 1 (by decide) (by decide) (by decide) (by decide)⟩

theorem producer_done_count {cfg : PumpCfg} (hbs : 1 ≤ cfg.blockSize)
    {rb : ringBuffer_t} {heap : Heap} {file : List Byte} {sched : List Bool} {s : Pump}
    (hbuf : rb.buffer ≠ none)
    (hrun : runPump cfg (Pump.start rb heap (some file)) sched = .ok s)
    (hdone : s.ppc = .done) :
    acquireCount cfg (Pump.start rb heap (some file)) sched =
        (file.length + cfg.blockSize - 1) / cfg.blockSize + 1 ∧
      ∃ (data : List Blk) (last : Blk), s.committed = data ++ [last] ∧
        data.length = (file.length + cfg.blockSize - 1) / cfg.blockSize ∧
        (∀ b ∈ data, b.eof = 0 ∧ 1 ≤ b.len ∧ b.len ≤ cfg.blockSize) ∧
        (data.map (fun b => b.len)).sum = file.length ∧ last.eof = 1 ∧ last.len = 0 := by
  obtain ⟨hsig, hacq, -, -⟩ := producer_done_signature hbs hbuf hrun hdone
  obtain ⟨data, last, hc, hlen, hd, hl0, hl1⟩ := done_blocks hsig
  have hdl : data.length = (file.length + cfg.blockSize - 1) / cfg.blockSize := by
    rw [← chunkLens_length hbs, ← hlen, List.length_map]
  refine ⟨?_, data, last, hc, hdl, ?_, ?_, hl1, hl0⟩
  · rw [hacq, hc, List.length_append, List.length_singleton, hdl]
  · intro b hb
    have hm : b.len ∈ chunkLens cfg.blockSize file.length := by
      rw [← hlen]
      exact List.mem_map.mpr ⟨b, hb, rfl⟩
    exact ⟨hd b hb, chunkLens_mem hbs _ _ hm⟩
  · rw [hlen]
    exact chunkLens_sum _ _

/-- C19. On a 64-bit target, with the ring `rbInit` builds for capacity 2, block
size 1 and a file of one byte, the claim expects two acquire/commit pairs. The
producer commits the data block, its second `rbAcquireWriteSlot` returns
`rb->buffer + 24`, and the fill of that slot is outside the array: two acquires,
one commit, no terminal block. With the constants of `main` and a file of 393217
bytes the producer returns under no schedule, except through its `!block` exit
after a failed `calloc`, with nothing committed. Whenever `producerCall` does
return on an opened file and a ring whose `buffer` is not `NULL`, it has made the
claimed number of acquires and commits, with the claimed lengths and flags. -/
theorem producer_pairs_cut_short :
    rbInit sizeofBlock64 (fun _ => true) ⟨none, 0, 2, 0, 0, 0⟩ [] 2 1 =
      .ok (0, ⟨some [⟨1, 0, 0⟩, ⟨2, 0, 0⟩], 48, 2, 0, 0, 0⟩, [[0], [0]]) ∧
    (runPump ⟨sizeofBlock64, 1, ftAcceptAll, 2⟩
        (Pump.start ⟨some [⟨1, 0, 0⟩, ⟨2, 0, 0⟩], 48, 2, 0, 0, 0⟩ [[0], [0]] (some [10]))
        [true, true, true, true, true]).toOption.map (fun s => (s.ppc, s.committed)) =
      some (.fill 24, [⟨1, [10], 0⟩]) ∧
    acquireCount ⟨sizeofBlock64, 1, ftAcceptAll, 2⟩
        (Pump.start ⟨some [⟨1, 0, 0⟩, ⟨2, 0, 0⟩], 48, 2, 0, 0, 0⟩ [[0], [0]] (some [10]))
        [true, true, true, true, true] = 2 ∧
    runPump ⟨sizeofBlock64, 1, ftAcceptAll, 2⟩
        (Pump.start ⟨some [⟨1, 0, 0⟩, ⟨2, 0, 0⟩], 48, 2, 0, 0, 0⟩ [[0], [0]] (some [10]))
        [true, true, true, true, true, true] = .error .ub ∧
    runPump ⟨sizeofBlock64, 1, ftAcceptAll, 2⟩
        (Pump.start ⟨some [⟨1, 0, 0⟩, ⟨2, 0, 0⟩], 48, 2, 0, 0, 0⟩ [[0], [0]] (some [10]))
        [true, true, true, true, false, false, true, true] = .error .ub ∧
    (∀ (cap0 : Nat) (sched : List Bool) (s : Pump),
      initAndPump sizeofBlock64 cap0 RING_BUFFER_CAPACITY RING_BUFFER_BLOCK_SIZE
          (List.replicate 393217 0) sched = .ok s →
        s.ppc = .done → s.rb.buffer = none ∧ s.committed = []) ∧
    (∀ (cfg : PumpCfg) (rb : ringBuffer_t) (heap : Heap) (file : List Byte)
        (sched : List Bool) (s : Pump),
      1 ≤ cfg.blockSize → rb.buffer ≠ none →
      runPump cfg (Pump.start rb heap (some file)) sched = .ok s → s.ppc = .done →
        acquireCount cfg (Pump.start rb heap (some file)) sched =
            (file.length + cfg.blockSize - 1) / cfg.blockSize + 1 ∧
          ∃ (data : List Blk) (last : Blk), s.committed = data ++ [last] ∧
            data.length = (file.length + cfg.blockSize - 1) / cfg.blockSize ∧
            (∀ b ∈ data, b.eof = 0 ∧ 1 ≤ b.len ∧ b.len ≤ cfg.blockSize) ∧
            (data.map (fun b => b.len)).sum = file.length ∧
            last.eof = 1 ∧ last.len = 0) := by
  refine ⟨by decide, by decide, by decide, by decide, by decide,
    fun cap0 sched s h => ?_, fun cfg rb heap file sched s hbs hbuf hrun hdone => ?_⟩
  · exact (main_pump_never_completes cap0 _ sched s
      (by rw [List.length_replicate]; decide) h).1
  · exact producer_done_count hbs hbuf hrun hdone

/-! ## The exit code of `main` -/

theorem abort_run (sz bs cap bend f a : Nat) (ft : Nat → Nat → FtResp)
    (slots : List block_t) (b0 b1 : block_t) (heap : Heap) (old : List Byte) (x : Byte)
    (h0 : slots[0]? = some b0) (h1 : slots[sz]? = some b1) (hsz : 1 ≤ sz)
    (hd : b0.data = a + 1) (hold : heap[a]? = some old) (holdlen : 1 ≤ old.length)
    (hcap : 2 ≤ cap) (hend : bend ≠ sz) (hbs : 1 ≤ bs)
    (hft : (ft 0 1).status ≠ FT_OK) :
    ∃ s : Pump,
      runPump ⟨sz, bs, ft, f + 1⟩ (Pump.start ⟨some slots, bend, cap, 0, 0, 0⟩ heap (some [x]))
          [true, true, true, true, false, false, true, true, true] = .ok s ∧
        s.ppc = .done ∧ s.cpc = .failed ∧ s.dev.received = [] ∧
        (∃ sl : List block_t, s.rb.buffer = some sl ∧ sl.length = slots.length) ∧
        s.rb.capacity = cap := by
  have hmin : min bs 1 = 1 := Nat.min_eq_right hbs
  have hc0 : (0 : Nat) ≠ cap := by omega
  have hl0 : 0 < slots.length := by
    rcases List.getElem?_eq_some_iff.mp h0 with ⟨hlt, -⟩
    exact hlt
  have hlsz : sz < slots.length := by
    rcases List.getElem?_eq_some_iff.mp h1 with ⟨hlt, -⟩
    exact hlt
  have hsz0 : (0 : Nat) ≠ sz := by omega
  have hla : a < heap.length := by
    rcases List.getElem?_eq_some_iff.mp hold with ⟨hlt, -⟩
    exact hlt
  have e1 : (0 + 1) % SIZE_MOD = 1 := by decide
  have e2 : (1 + SIZE_MOD - 1) % SIZE_MOD = 0 := by decide
  have e3 : 1 % DWORD_MOD = 1 := by decide
  have e4 : (1 + DWORD_MOD - 0) % DWORD_MOD = 1 := by decide
  have e5 : (0 : Nat) < 1 := by decide
  simp [runPump, producerCall, consumerCall, Pump.start, rbAcquireWriteSlot, fillSlot,
    rbCommitWriteSlot, rbPop, slotAt, Heap.store, Heap.load, writeAllFt, writeAllFtLoop,
    FT_Write, FtDev.fresh, view, h0, h1, hd, hold, hmin, hc0, hl0, hlsz, hsz0, hla, hend,
    hend.symm, hft, holdlen, e1, e2, e3, e4, List.getElem?_set]

theorem rbInitLoop_heap (bs : Nat) :
    ∀ (todo i : Nat) (slots : List block_t) (heap : Heap) (slots' : List block_t)
      (heap' : Heap),
      rbInitLoop (fun _ => true) bs todo i slots heap = .ok (slots', heap') →
      heap' = heap ++ List.replicate todo (List.replicate bs 0) := by
  intro todo
  induction todo with
  | zero =>
    intro i slots heap slots' heap' h
    simp only [rbInitLoop, Except.ok.injEq, Prod.mk.injEq] at h
    rw [← h.2]
    simp
  | succ n ih =>
    intro i slots heap slots' heap' h
    simp only [rbInitLoop, malloc, if_true] at h
    split at h
    · have := ih _ _ _ _ _ h
      rw [this, List.replicate_succ, List.append_assoc]
      rfl
    · simp at h

theorem rbInit_heap {sz : Nat} {rb0 : ringBuffer_t} {heap0 : Heap} {capacity bs : Nat}
    {st : Int} {rb : ringBuffer_t} {heap : Heap}
    (h : rbInit sz (fun _ => true) rb0 heap0 capacity bs = .ok (st, rb, heap)) (hst : st = 0) :
    heap = heap0 ++ List.replicate capacity (List.replicate bs 0) := by
  unfold rbInit at h
  split at h
  · simp only [Except.ok.injEq, Prod.mk.injEq] at h
    rw [← h.1] at hst
    exact absurd hst (by decide)
  · split at h
    · simp at h
    · rename_i slots' heap' hloop
      simp only [Except.ok.injEq, Prod.mk.injEq] at h
      rw [← h.2.2]
      exact rbInitLoop_heap _ _ _ _ _ _ _ hloop

theorem rbInit_main :
    rbInit sizeofBlock64 (fun _ => true) ⟨none, 0, 128, 0, 0, 0⟩ [] RING_BUFFER_CAPACITY
        RING_BUFFER_BLOCK_SIZE =
      .ok (0, ⟨some ((List.range 128).map (fun i => ⟨i + 1, 0, 0⟩)), 3072, 128, 0, 0, 0⟩,
        List.replicate RING_BUFFER_CAPACITY (List.replicate RING_BUFFER_BLOCK_SIZE 0)) := by
  have hp : (rbInit sizeofBlock64 (fun _ => true) ⟨none, 0, 128, 0, 0, 0⟩ []
      RING_BUFFER_CAPACITY RING_BUFFER_BLOCK_SIZE).toOption.map (fun r => (r.1, r.2.1)) =
      some (0, ⟨some ((List.range 128).map (fun i => ⟨i + 1, 0, 0⟩)), 3072, 128, 0, 0, 0⟩) := by
    decide!
  cases h : rbInit sizeofBlock64 (fun _ => true) ⟨none, 0, 128, 0, 0, 0⟩ []
      RING_BUFFER_CAPACITY RING_BUFFER_BLOCK_SIZE with
  | error e =>
    rw [h] at hp
    simp [Except.toOption] at hp
  | ok r =>
    obtain ⟨st, rb, heap⟩ := r
    rw [h] at hp
    simp only [Except.toOption, Option.map_some', Option.some.injEq, Prod.mk.injEq] at hp
    obtain ⟨hst, hrb⟩ := hp
    have hheap := rbInit_heap h hst
    rw [hst, hrb, hheap, List.nil_append]

theorem mainWorkers_abort :
    ∃ s : Pump,
      mainWorkers sizeofBlock64 ⟨none, 0, 128, 0, 0, 0⟩ (fun _ => true) (some [7])
          (fun _ _ => ⟨1, 0⟩) 1
          [true, true, true, true, false, false, true, true, true] = .ok s ∧
        s.ppc = .done ∧ s.cpc = .failed ∧ s.dev.received = [] ∧ rbFree s.rb = .ok () := by
  have hslots0 : ((List.range 128).map (fun i => (⟨i + 1, 0, 0⟩ : block_t)))[0]? =
      some ⟨1, 0, 0⟩ := by decide!
  have hslots1 : ((List.range 128).map (fun i => (⟨i + 1, 0, 0⟩ : block_t)))[sizeofBlock64]? =
      some ⟨25, 0, 0⟩ := by decide!
  have hheap : (List.replicate RING_BUFFER_CAPACITY
      (List.replicate RING_BUFFER_BLOCK_SIZE (0 : Byte)))[0]? =
      some (List.replicate RING_BUFFER_BLOCK_SIZE 0) := by
    rw [List.getElem?_replicate, if_pos (by decide)]
  have hlen : 1 ≤ (List.replicate RING_BUFFER_BLOCK_SIZE (0 : Byte)).length := by
    rw [List.length_replicate]
    decide
  obtain ⟨s, hrun, hp, hc, hr, ⟨sl, hsl, hsll⟩, hcap⟩ :=
    abort_run sizeofBlock64 RING_BUFFER_BLOCK_SIZE 128 3072 0 0 (fun _ _ => ⟨1, 0⟩)
      ((List.range 128).map (fun i => ⟨i + 1, 0, 0⟩)) ⟨1, 0, 0⟩ ⟨25, 0, 0⟩
      (List.replicate RING_BUFFER_CAPACITY (List.replicate RING_BUFFER_BLOCK_SIZE 0))
      (List.replicate RING_BUFFER_BLOCK_SIZE 0) 7
      hslots0 hslots1 (by decide) rfl hheap hlen (by decide) (by decide) (by decide)
      (by decide)
  refine ⟨s, ?_, hp, hc, hr, ?_⟩
  · unfold mainWorkers
    rw [rbInit_main]
    exact hrun
  · unfold rbFree
    rw [hsl, hcap]
    have h128 : sl.length = 128 := by
      rw [hsll, List.length_map, List.length_range]
    simp [h128]

/-- C16, counterexample. With two arguments, every device-setup call returning
`FT_OK` and `rbInit` succeeding, a one-byte file and a sink whose first `FT_Write`
returns the status 1: the consumer aborts, the producer commits its two blocks
and returns, nothing has reached the sink, and `main` returns 0. When `calloc`
fails in `rbInit`, `main` starts the workers all the same: the producer returns
through its `!block` exit with nothing committed and the consumer stays in
`rbPop`, so `main` is still in `pthread_join`. When the file cannot be opened,
the producer returns and the consumer stays in `rbPop` as well. -/
theorem exit_code_ignores_outcome :
    (main sizeofBlock64 2 (fun _ => FT_OK) ⟨none, 0, 128, 0, 0, 0⟩ (fun _ => true) (some [7])
        (fun _ _ => ⟨1, 0⟩) 1 [true, true, true, true, false, false, true, true, true] =
      .ok (some 0) ∧
      (mainWorkers sizeofBlock64 ⟨none, 0, 128, 0, 0, 0⟩ (fun _ => true) (some [7])
        (fun _ _ => ⟨1, 0⟩) 1
        [true, true, true, true, false, false, true, true, true]).toOption.map
          (fun s => (s.ppc, s.cpc, s.dev.received)) = some (.done, .failed, [])) ∧
    ((rbInit sizeofBlock64 (fun _ => false) ⟨none, 0, 128, 0, 0, 0⟩ [] RING_BUFFER_CAPACITY
        RING_BUFFER_BLOCK_SIZE).toOption.map (fun r => r.1) = some (-1) ∧
      main sizeofBlock64 2 (fun _ => FT_OK) ⟨none, 0, 128, 0, 0, 0⟩ (fun _ => false) (some [7])
        ftAcceptAll 1 [true, true, false, false, false] = .ok none ∧
      (mainWorkers sizeofBlock64 ⟨none, 0, 128, 0, 0, 0⟩ (fun _ => false) (some [7])
        ftAcceptAll 1 [true, true, false, false, false]).toOption.map
          (fun s => (s.ppc, s.cpc, s.committed)) = some (.done, .pop, [])) ∧
    (main sizeofBlock64 2 (fun _ => FT_OK) ⟨none, 0, 128, 0, 0, 0⟩ (fun _ => true) none
        ftAcceptAll 1 [true, false, false, false] = .ok none ∧
      (mainWorkers sizeofBlock64 ⟨none, 0, 128, 0, 0, 0⟩ (fun _ => true) none
        ftAcceptAll 1 [true, false, false, false]).toOption.map
          (fun s => (s.ppc, s.cpc)) = some (.done, .pop)) := by
  obtain ⟨s, hrun, hp, hc, hr, hfree⟩ := mainWorkers_abort
  refine ⟨⟨?_, ?_⟩, ⟨by decide!, by decide!, by decide!⟩, ⟨by decide!, by decide!⟩⟩
  · unfold main
    rw [if_neg (by decide), if_neg (by decide), hrun]
    simp only [hp, hc, hfree, true_and, or_true, if_true]
  · rw [hrun]
    simp [Except.toOption, hp, hc, hr]

/-- C16, as amended. The exit code of `main` is 1 when fewer than two arguments
are given or one of the seven device-setup calls returns a status other than
`FT_OK`. Otherwise `main` returns only once both workers have returned, and its
exit code is then 0 whatever their outcome: also when the consumer returned
after a failed write to the sink. -/
theorem main_exit_code (sz argc : Nat) (setup : Nat → Nat) (rb0 : ringBuffer_t)
    (alloc : Nat → Bool) (file : Option (List Byte)) (ft : Nat → Nat → FtResp) (fuel : Nat)
    (sched : List Bool) :
    ((argc < CLI_ARGUMENT_MIN ∨ ∃ k : Nat, k < 7 ∧ setup k ≠ FT_OK) →
        main sz argc setup rb0 alloc file ft fuel sched = .ok (some 1)) ∧
      (¬ (argc < CLI_ARGUMENT_MIN ∨ ∃ k : Nat, k < 7 ∧ setup k ≠ FT_OK) →
        ∀ code : Int, main sz argc setup rb0 alloc file ft fuel sched = .ok (some code) ↔
          (code = 0 ∧ ∃ s : Pump, mainWorkers sz rb0 alloc file ft fuel sched = .ok s ∧
            s.ppc = .done ∧ (s.cpc = .done ∨ s.cpc = .failed) ∧ rbFree s.rb = .ok ())) := by
  have hany : ((List.range 7).any (fun k => decide (setup k ≠ FT_OK)) = true) ↔
      ∃ k : Nat, k < 7 ∧ setup k ≠ FT_OK := by
    simp [List.any_eq_true, List.mem_range]
  constructor
  · intro h
    unfold main
    by_cases ha : argc < CLI_ARGUMENT_MIN
    · rw [if_pos ha]
    · rw [if_neg ha]
      rcases h with h | h
      · exact absurd h ha
      · rw [if_pos (hany.mpr h)]
  · intro h code
    have ha : ¬ argc < CLI_ARGUMENT_MIN := fun hh => h (Or.inl hh)
    have hs : ¬ ((List.range 7).any (fun k => decide (setup k ≠ FT_OK)) = true) :=
      fun hh => h (Or.inr (hany.mp hh))
    unfold main
    rw [if_neg ha, if_neg hs]
    cases hw : mainWorkers sz rb0 alloc file ft fuel sched with
    | error e => simp
    | ok s =>
      simp only [Except.ok.injEq, exists_eq_left']
      by_cases hc : s.ppc = .done ∧ (s.cpc = .done ∨ s.cpc = .failed)
      · rw [if_pos hc]
        cases hf : rbFree s.rb with
        | error e => simp
        | ok u =>
          simp only [Except.ok.injEq, Option.some.injEq]
          constructor
          · intro h0
            exact ⟨h0.symm, hc.1, hc.2, trivial⟩
          · intro h0
            exact h0.1.symm
      · rw [if_neg hc]
        simp only [Except.ok.injEq]
        constructor
        · intro h0
          simp at h0
        · intro h0
          exact absurd ⟨h0.2.1, h0.2.2.1⟩ hc

end ElixRing
